import Mathlib

/-!
# Verification of gitui core components

A shallow embedding of the core data model and operations of the gitui
TUI application (options store, diff/blame search sub-machines, rebase
todo parsing and mutation, the IPC shared-memory channel, the log
walker, and the self-dispatching command line), together with theorems
settling the specification claims about them.

Rust strings are modelled as `List Char` (or `String` where the content
is opaque); byte buffers as `List Nat`; text files as the list of their
lines; fallible operations as `Except`/`Option` where `none`/`.error`
marks a panic or error return.
-/

set_option maxHeartbeats 1000000
set_option maxRecDepth 4000

/-! ## Options store: commit-message history (src/options.rs)

`add_commit_msg` pushes the new message at the back of
`OptionsData::commit_msgs` and then repeatedly removes the front element
while the length exceeds `COMMIT_MSG_HISTRY_LENGTH` (constant 20 in the
source, spelling preserved). -/

def COMMIT_MSG_HISTRY_LENGTH : Nat := 20

/-- The trimming loop of `Options::add_commit_msg`:
`while commit_msgs.len() > COMMIT_MSG_HISTRY_LENGTH { commit_msgs.remove(0); }`
(`Vec::remove(0)` drops the front element). -/
def trimCommitMsgs (msgs : List String) : List String :=
  if msgs.length > COMMIT_MSG_HISTRY_LENGTH then trimCommitMsgs (msgs.drop 1)
  else msgs
termination_by msgs.length
decreasing_by
  simp only [List.length_drop]
  omega

/-- `Options::add_commit_msg`: push at the back, then trim the front. -/
def add_commit_msg (msgs : List String) (msg : String) : List String :=
  trimCommitMsgs (msgs ++ [msg])

theorem trimCommitMsgs_of_le (msgs : List String)
    (h : msgs.length ≤ COMMIT_MSG_HISTRY_LENGTH) :
    trimCommitMsgs msgs = msgs := by
  rw [trimCommitMsgs, if_neg (by omega)]

theorem trimCommitMsgs_eq_drop (msgs : List String)
    (h : msgs.length ≤ COMMIT_MSG_HISTRY_LENGTH + 1) :
    trimCommitMsgs msgs = msgs.drop (msgs.length - COMMIT_MSG_HISTRY_LENGTH) := by
  rw [trimCommitMsgs]
  by_cases hgt : msgs.length > COMMIT_MSG_HISTRY_LENGTH
  · rw [if_pos hgt]
    rw [trimCommitMsgs_of_le _ (by simp only [List.length_drop]; omega)]
    have hlen : msgs.length - COMMIT_MSG_HISTRY_LENGTH = 1 := by omega
    rw [hlen]
  · rw [if_neg hgt]
    have hlen : msgs.length - COMMIT_MSG_HISTRY_LENGTH = 0 := by omega
    rw [hlen, List.drop_zero]

theorem add_commit_msg_eq_drop (msgs : List String) (msg : String)
    (h : msgs.length ≤ COMMIT_MSG_HISTRY_LENGTH) :
    add_commit_msg msgs msg =
      (msgs ++ [msg]).drop ((msgs ++ [msg]).length - COMMIT_MSG_HISTRY_LENGTH) := by
  unfold add_commit_msg
  apply trimCommitMsgs_eq_drop
  simp only [List.length_append, List.length_cons, List.length_nil]
  omega

theorem add_commit_msg_length_le (msgs : List String) (msg : String)
    (h : msgs.length ≤ COMMIT_MSG_HISTRY_LENGTH) :
    (add_commit_msg msgs msg).length ≤ COMMIT_MSG_HISTRY_LENGTH := by
  rw [add_commit_msg_eq_drop msgs msg h]
  simp only [List.length_drop, List.length_append, List.length_cons, List.length_nil]
  omega

theorem foldl_add_commit_msg (adds : List String) :
    ∀ msgs : List String, msgs.length ≤ COMMIT_MSG_HISTRY_LENGTH →
    adds.foldl add_commit_msg msgs =
      (msgs ++ adds).drop ((msgs ++ adds).length - COMMIT_MSG_HISTRY_LENGTH) := by
  induction adds with
  | nil =>
    intro msgs h
    simp only [List.foldl_nil, List.append_nil]
    have h0 : msgs.length - COMMIT_MSG_HISTRY_LENGTH = 0 := by omega
    rw [h0, List.drop_zero]
  | cons a rest ih =>
    intro msgs h
    have hstep := add_commit_msg_eq_drop msgs a h
    have hlen := add_commit_msg_length_le msgs a h
    rw [List.foldl_cons, ih _ hlen, hstep]
    have hkle : (msgs ++ [a]).length - COMMIT_MSG_HISTRY_LENGTH ≤ (msgs ++ [a]).length := by
      omega
    rw [← List.drop_append_of_le_length hkle, List.drop_drop]
    have hassoc : (msgs ++ [a]) ++ rest = msgs ++ a :: rest := by simp
    rw [hassoc]
    congr 1
    simp only [List.length_drop, List.length_append, List.length_cons, List.length_nil]
    omega

/-- C8: starting from any in-memory history of at most 20 entries, after
any sequence of `add_commit_msg` calls the stored list holds at most 20
entries, and it is exactly the final segment (the most recently added
messages, in order) of the full history `init ++ adds` — i.e. whenever an
insertion would exceed 20, only the oldest (front) entries are removed. -/
theorem options_commit_msg_ring (init adds : List String)
    (h : init.length ≤ COMMIT_MSG_HISTRY_LENGTH) :
    (adds.foldl add_commit_msg init).length ≤ COMMIT_MSG_HISTRY_LENGTH ∧
    adds.foldl add_commit_msg init =
      (init ++ adds).drop ((init ++ adds).length - COMMIT_MSG_HISTRY_LENGTH) := by
  refine ⟨?_, foldl_add_commit_msg adds init h⟩
  rw [foldl_add_commit_msg adds init h]
  simp only [List.length_drop]
  omega

theorem options_commit_msg_ring_witness :
    (["m1"] : List String).length ≤ COMMIT_MSG_HISTRY_LENGTH ∧
    (((["m2", "m3"] : List String).foldl add_commit_msg ["m1"]).length ≤
        COMMIT_MSG_HISTRY_LENGTH ∧
      (["m2", "m3"] : List String).foldl add_commit_msg ["m1"] =
        ((["m1"] : List String) ++ ["m2", "m3"]).drop
          (((["m1"] : List String) ++ ["m2", "m3"]).length -
            COMMIT_MSG_HISTRY_LENGTH)) :=
  ⟨by decide, options_commit_msg_ring ["m1"] ["m2", "m3"] (by decide)⟩

/-! ## Diff engine: incremental-search Backspace (src/components/diff.rs)

The diff search sub-machine state is `Option SearchState` with
`SearchState::{IncSearch(needle, orig_pos), Search(needle)}`.  On a
Backspace key in the `IncSearch` state the handler runs
`s.remove(s.len() - 1)`.  `usize` subtraction wraps (release) or aborts
(debug), and `String::remove(i)` panics when `i` is out of bounds, so the
removal is modelled as an `Option`, `none` marking the panic. -/

inductive DiffSearchState where
  | IncSearch (needle : List Char) (origPos : Nat)
  | Search (needle : List Char)
deriving DecidableEq

/-- `usize` subtraction as computed by `s.len() - 1` (wrapping two's
complement semantics of the release build). -/
def usizeSub (a b : Nat) : Nat := (a + 2 ^ 64 - b) % 2 ^ 64

/-- `String::remove(i)`: removes the character at index `i`; panics
(`none`) when `i` is out of bounds. -/
def stringRemove (s : List Char) (i : Nat) : Option (List Char) :=
  if i < s.length then some (s.take i ++ s.drop (i + 1)) else none

/-- The Backspace branch of `DiffComponent::search_event` (lines 494-501):
in the `IncSearch` state it runs `s.remove(s.len() - 1)`; in every other
state Backspace leaves the search state unchanged.  `none` marks a panic. -/
def diff_search_event_backspace (st : Option DiffSearchState) :
    Option (Option DiffSearchState) :=
  match st with
  | some (DiffSearchState.IncSearch s p) =>
    (stringRemove s (usizeSub s.length 1)).map
      (fun s2 => some (DiffSearchState.IncSearch s2 p))
  | other => some other

/-- C9 (code bug): handling Backspace in the incremental-search state is
NOT total — with the empty needle (the state right after search is
initiated with `String::new()`), the removal index `s.len() - 1`
underflows and `String::remove` panics, so the handler aborts instead of
removing at most the last character. -/
theorem diff_search_backspace_empty_needle_panics :
    diff_search_event_backspace (some (DiffSearchState.IncSearch [] 0)) = none := by
  decide

/-! ## Self-dispatching command line (src/main.rs)

`main` runs the rebase-editor child (`dummy_mode`) when the arguments
contain `--event_id`, and the normal UI otherwise.  `dummy_mode` scans
the arguments with a three-state machine picking up the values following
`--event_id` and `--type`, takes the LAST argument as the todo-file
path, and bails out when either captured value is empty. -/

inductive ArgState where
  | noneSt
  | eventIdSt
  | typeSt

/-- The `for arg in args` loop of `dummy_mode`: returns the captured
`(event_id, dummy_type)` pair. -/
def dummyArgsLoop : ArgState → String → String → List String → String × String
  | _, ev, ty, [] => (ev, ty)
  | s, ev, ty, arg :: rest =>
    match s with
    | ArgState.eventIdSt => dummyArgsLoop ArgState.noneSt arg ty rest
    | ArgState.typeSt => dummyArgsLoop ArgState.noneSt ev arg rest
    | ArgState.noneSt =>
      if arg = "--event_id" then dummyArgsLoop ArgState.eventIdSt ev ty rest
      else if arg = "--type" then dummyArgsLoop ArgState.typeSt ev ty rest
      else dummyArgsLoop ArgState.noneSt ev ty rest

/-- The argument-validation stage of `dummy_mode`: `file_path` is the last
argument (`args().last()`), then the empty-value checks.  On success the
child proceeds to the IPC handshake with the returned
`(event_id, dummy_type, file_path)`. -/
def dummy_mode (args : List String) : Except String (String × String × String) :=
  match args.getLast? with
  | none => Except.error "NotFound"
  | some file_path =>
    let (event_id, dummy_type) := dummyArgsLoop ArgState.noneSt "" "" args
    if event_id = "" then Except.error "Missing --event_id"
    else if dummy_type = "" then Except.error "Missing --type"
    else Except.ok (event_id, dummy_type, file_path)

inductive MainMode where
  | rebaseChild (r : Except String (String × String × String))
  | normalUI

/-- `main`'s dispatch: `std::env::args().find(|i| i == "--event_id")`. -/
def main_dispatch (args : List String) : MainMode :=
  if args.contains "--event_id" then MainMode.rebaseChild (dummy_mode args)
  else MainMode.normalUI

/-- C7 counterexample: an invocation carrying `--event_id` whose `--type`
value is not `rebase` is accepted by the child's argument validation (no
error), contradicting the claim that a `--type rebase` argument is
required. -/
theorem dummy_mode_accepts_non_rebase_type :
    (["gitui", "--event_id", "5", "--type", "other",
        "todo.txt"] : List String).contains "--event_id" = true ∧
    (dummyArgsLoop ArgState.noneSt "" ""
        ["gitui", "--event_id", "5", "--type", "other", "todo.txt"]).2 ≠ "rebase" ∧
    main_dispatch ["gitui", "--event_id", "5", "--type", "other", "todo.txt"] =
      MainMode.rebaseChild (Except.ok ("5", "other", "todo.txt")) := by
  constructor
  · rfl
  constructor
  · decide
  · rfl

/-- C7 (amended): arguments without `--event_id` run the normal UI;
arguments with `--event_id` run the rebase-editor child, whose validation
succeeds if and only if the captured `--event_id` and `--type` values are
both non-empty (any non-empty `--type` value is accepted, `rebase` is not
checked), and on success the todo-file path is simply the last argument
(there is no separate positional-path validation). -/
theorem main_dispatch_spec (args : List String) (f : String)
    (hlast : args.getLast? = some f) :
    (args.contains "--event_id" = false → main_dispatch args = MainMode.normalUI) ∧
    (args.contains "--event_id" = true →
      main_dispatch args = MainMode.rebaseChild (dummy_mode args)) ∧
    (∀ ev ty f2, dummy_mode args = Except.ok (ev, ty, f2) →
      ev ≠ "" ∧ ty ≠ "" ∧ f2 = f ∧
        (ev, ty) = dummyArgsLoop ArgState.noneSt "" "" args) ∧
    ((dummyArgsLoop ArgState.noneSt "" "" args).1 ≠ "" →
      (dummyArgsLoop ArgState.noneSt "" "" args).2 ≠ "" →
      dummy_mode args =
        Except.ok ((dummyArgsLoop ArgState.noneSt "" "" args).1,
          (dummyArgsLoop ArgState.noneSt "" "" args).2, f)) := by
  refine ⟨?_, ?_, ?_, ?_⟩
  · intro h
    simp only [main_dispatch, h, Bool.false_eq_true, if_false]
  · intro h
    simp only [main_dispatch, h, if_true]
  · intro ev ty f2 h
    unfold dummy_mode at h
    rw [hlast] at h
    by_cases h1 : (dummyArgsLoop ArgState.noneSt "" "" args).1 = ""
    · simp only [h1, if_pos rfl] at h
      exact absurd h (by simp)
    · by_cases h2 : (dummyArgsLoop ArgState.noneSt "" "" args).2 = ""
      · simp only [if_neg h1, h2, if_pos rfl] at h
        exact absurd h (by simp)
      · simp only [if_neg h1, if_neg h2, Except.ok.injEq, Prod.mk.injEq] at h
        refine ⟨h.1 ▸ h1, ?_, ?_, ?_⟩
        · exact h.2.1 ▸ h2
        · exact h.2.2.symm
        · rw [← h.1, ← h.2.1]
  · intro h1 h2
    unfold dummy_mode
    rw [hlast]
    simp only [if_neg h1, if_neg h2]

theorem main_dispatch_spec_witness :
    ((["gitui", "--event_id", "7", "--type", "rebase",
        "todo"] : List String).getLast? = some "todo") ∧
    (((["gitui", "--event_id", "7", "--type", "rebase",
          "todo"] : List String).contains "--event_id" = false →
        main_dispatch ["gitui", "--event_id", "7", "--type", "rebase", "todo"] =
          MainMode.normalUI) ∧
      ((["gitui", "--event_id", "7", "--type", "rebase",
          "todo"] : List String).contains "--event_id" = true →
        main_dispatch ["gitui", "--event_id", "7", "--type", "rebase", "todo"] =
          MainMode.rebaseChild
            (dummy_mode ["gitui", "--event_id", "7", "--type", "rebase", "todo"])) ∧
      (∀ ev ty f2,
        dummy_mode ["gitui", "--event_id", "7", "--type", "rebase", "todo"] =
          Except.ok (ev, ty, f2) →
        ev ≠ "" ∧ ty ≠ "" ∧ f2 = "todo" ∧
          (ev, ty) = dummyArgsLoop ArgState.noneSt "" ""
            ["gitui", "--event_id", "7", "--type", "rebase", "todo"]) ∧
      ((dummyArgsLoop ArgState.noneSt "" ""
            ["gitui", "--event_id", "7", "--type", "rebase", "todo"]).1 ≠ "" →
        (dummyArgsLoop ArgState.noneSt "" ""
            ["gitui", "--event_id", "7", "--type", "rebase", "todo"]).2 ≠ "" →
        dummy_mode ["gitui", "--event_id", "7", "--type", "rebase", "todo"] =
          Except.ok
            ((dummyArgsLoop ArgState.noneSt "" ""
                ["gitui", "--event_id", "7", "--type", "rebase", "todo"]).1,
              (dummyArgsLoop ArgState.noneSt "" ""
                ["gitui", "--event_id", "7", "--type", "rebase", "todo"]).2,
              "todo"))) :=
  ⟨rfl, main_dispatch_spec ["gitui", "--event_id", "7", "--type", "rebase", "todo"]
    "todo" rfl⟩

/-! ## Options store: mutations and persistence (src/options.rs)

Every mutation updates the in-memory `OptionsData` and then calls
`save`, which only logs a failure of `save_failable`.  `save_failable`
resolves the options path (`options_file`, fallible), runs
`File::create` (fallible; ON SUCCESS IT TRUNCATES the file), then
serializes (`to_string_pretty`, fallible) and writes (`write_all`,
fallible).  The four failure points are modelled as booleans of a
`SaveEnv`; the persisted file is `missing`, `saved d`, or `corrupt`
(truncated / partially written). -/

structure DiffOptionsM where
  context : Nat
  interhunk_lines : Nat
  ignore_whitespace : Bool
deriving DecidableEq

inductive ShowUntrackedM where
  | no
  | normal
  | all
deriving DecidableEq

structure GitExternCommandsM where
  push_base : Option String
  fetch_base : Option String
  checkout_base : Option String
deriving DecidableEq

abbrev KeyEvt := Nat × Nat

structure OptionsData where
  tab : Nat
  diff : DiffOptionsM
  status_show_untracked : Option ShowUntrackedM
  commit_msgs : List String
  extern_cmds : List (String × Option KeyEvt)
  git_extern_cmds : GitExternCommandsM
  branch_shortcuts : List (String × KeyEvt)
deriving DecidableEq

inductive OptionsFile where
  | missing
  | saved (d : OptionsData)
  | corrupt
deriving DecidableEq

structure SaveEnv where
  pathOk : Bool
  createOk : Bool
  serOk : Bool
  writeOk : Bool
deriving DecidableEq

/-- `Options::save_failable`: options path, `File::create` (truncating on
success), `to_string_pretty`, `write_all` — in that order. -/
def save_failable (env : SaveEnv) (d : OptionsData) (fs : OptionsFile) :
    Except String Unit × OptionsFile :=
  if env.pathOk = false then (Except.error "options_file", fs)
  else if env.createOk = false then (Except.error "File::create", fs)
  else
    if env.serOk = false then (Except.error "to_string_pretty", OptionsFile.corrupt)
    else if env.writeOk = false then (Except.error "write_all", OptionsFile.corrupt)
    else (Except.ok (), OptionsFile.saved d)

/-- `Options::save`: the `save_failable` error is only logged; the caller
sees no error, only the (possibly unchanged, possibly clobbered) file. -/
def optionsSave (env : SaveEnv) (d : OptionsData) (fs : OptionsFile) : OptionsFile :=
  (save_failable env d fs).2

/-- `Options::set_current_tab`. -/
def set_current_tab (env : SaveEnv) (o : OptionsData) (fs : OptionsFile)
    (tab : Nat) : OptionsData × OptionsFile :=
  let o2 := { o with tab := tab }
  (o2, optionsSave env o2 fs)

/-- `Options::set_status_show_untracked`. -/
def set_status_show_untracked (env : SaveEnv) (o : OptionsData) (fs : OptionsFile)
    (v : Option ShowUntrackedM) : OptionsData × OptionsFile :=
  let o2 := { o with status_show_untracked := v }
  (o2, optionsSave env o2 fs)

/-- `Options::diff_context_change` (`u32::saturating_add/sub`). -/
def diff_context_change (env : SaveEnv) (o : OptionsData) (fs : OptionsFile)
    (increase : Bool) : OptionsData × OptionsFile :=
  let c := if increase then min (o.diff.context + 1) (2 ^ 32 - 1) else o.diff.context - 1
  let o2 := { o with diff := { o.diff with context := c } }
  (o2, optionsSave env o2 fs)

/-- `Options::diff_toggle_whitespace`. -/
def diff_toggle_whitespace (env : SaveEnv) (o : OptionsData) (fs : OptionsFile) :
    OptionsData × OptionsFile :=
  let o2 := { o with diff := { o.diff with ignore_whitespace := !o.diff.ignore_whitespace } }
  (o2, optionsSave env o2 fs)

/-- `Options::add_extern_command`: dedup by exact command string,
insertion at the front (no save when the command exists). -/
def add_extern_command (env : SaveEnv) (o : OptionsData) (fs : OptionsFile)
    (cmd : String) : OptionsData × OptionsFile :=
  if (o.extern_cmds.find? (fun i => i.1 = cmd)).isSome then (o, fs)
  else
    let o2 := { o with extern_cmds := (cmd, none) :: o.extern_cmds }
    (o2, optionsSave env o2 fs)

/-- `Options::assign_shortcut_for_branch`: replace an existing entry's
shortcut, or push a new `(branch, shortcut)` pair at the back. -/
def assign_shortcut_for_branch (env : SaveEnv) (o : OptionsData) (fs : OptionsFile)
    (branch : String) (e : KeyEvt) : OptionsData × OptionsFile :=
  let bs :=
    if (o.branch_shortcuts.find? (fun i => i.1 = branch)).isSome then
      o.branch_shortcuts.map (fun i => if i.1 = branch then (i.1, e) else i)
    else o.branch_shortcuts ++ [(branch, e)]
  let o2 := { o with branch_shortcuts := bs }
  (o2, optionsSave env o2 fs)

/-- `Options::add_commit_msg` at the options level. -/
def options_add_commit_msg (env : SaveEnv) (o : OptionsData) (fs : OptionsFile)
    (msg : String) : OptionsData × OptionsFile :=
  let o2 := { o with commit_msgs := add_commit_msg o.commit_msgs msg }
  (o2, optionsSave env o2 fs)

def optData0 : OptionsData :=
  { tab := 0
    diff := { context := 3, interhunk_lines := 0, ignore_whitespace := false }
    status_show_untracked := none
    commit_msgs := []
    extern_cmds := []
    git_extern_cmds := { push_base := none, fetch_base := none, checkout_base := none }
    branch_shortcuts := [] }

/-- C10 counterexample: when `File::create` succeeds but `write_all`
fails, the in-memory change is applied and no error is returned, but the
previously persisted file contents are NOT left as they were — the file
was truncated by `File::create` before the failure. -/
theorem options_save_truncation_counterexample :
    (set_current_tab (SaveEnv.mk true true true false) optData0
        (OptionsFile.saved optData0) 4).1.tab = 4 ∧
    (set_current_tab (SaveEnv.mk true true true false) optData0
        (OptionsFile.saved optData0) 4).2 ≠ OptionsFile.saved optData0 ∧
    (set_current_tab (SaveEnv.mk true true true false) optData0
        (OptionsFile.saved optData0) 4).2 = OptionsFile.corrupt := by
  refine ⟨rfl, ?_, rfl⟩
  decide

theorem optionsSave_behavior (env : SaveEnv) (d : OptionsData) (fs : OptionsFile) :
    (env.pathOk = false ∨ env.createOk = false → optionsSave env d fs = fs) ∧
    (env.pathOk = true → env.createOk = true → env.serOk = true →
      env.writeOk = true → optionsSave env d fs = OptionsFile.saved d) ∧
    (env.pathOk = true → env.createOk = true →
      (env.serOk = false ∨ env.writeOk = false) →
      optionsSave env d fs = OptionsFile.corrupt) := by
  obtain ⟨p, c, s, w⟩ := env
  refine ⟨?_, ?_, ?_⟩
  · rintro (h | h)
    · subst h
      cases c <;> cases s <;> cases w <;> rfl
    · subst h
      cases p <;> cases s <;> cases w <;> rfl
  · intro h1 h2 h3 h4
    subst h1; subst h2; subst h3; subst h4
    rfl
  · intro h1 h2 h3
    subst h1; subst h2
    rcases h3 with h | h
    · subst h
      cases w <;> rfl
    · subst h
      cases s <;> rfl

/-- C10 (amended): every modelled Options mutation applies its change to
the in-memory record unconditionally and never returns an error to the
caller (the mutations are total functions into `OptionsData × OptionsFile`;
a `save_failable` failure is only logged).  The in-memory change is never
rolled back.  The previously persisted contents survive only the failures
that occur before `File::create` succeeds (path resolution or creation);
when the file was created but serialization or writing fails, the old
contents are lost (the file is left truncated). -/
theorem options_mutations_spec (env : SaveEnv) (o : OptionsData) (fs : OptionsFile)
    (tab : Nat) (v : Option ShowUntrackedM) (cmd branch msg : String) (e : KeyEvt) :
    (set_current_tab env o fs tab).1 = { o with tab := tab } ∧
    (set_status_show_untracked env o fs v).1 = { o with status_show_untracked := v } ∧
    (diff_toggle_whitespace env o fs).1 =
      { o with diff := { o.diff with ignore_whitespace := !o.diff.ignore_whitespace } } ∧
    (options_add_commit_msg env o fs msg).1 =
      { o with commit_msgs := add_commit_msg o.commit_msgs msg } ∧
    (set_current_tab env o fs tab).2 =
      optionsSave env { o with tab := tab } fs ∧
    (env.pathOk = false ∨ env.createOk = false →
      (set_current_tab env o fs tab).2 = fs ∧
      (set_status_show_untracked env o fs v).2 = fs ∧
      (diff_toggle_whitespace env o fs).2 = fs ∧
      (diff_context_change env o fs true).2 = fs ∧
      (add_extern_command env o fs cmd).2 = fs ∧
      (assign_shortcut_for_branch env o fs branch e).2 = fs ∧
      (options_add_commit_msg env o fs msg).2 = fs) ∧
    (env.pathOk = true → env.createOk = true →
      (env.serOk = false ∨ env.writeOk = false) →
      (set_current_tab env o fs tab).2 = OptionsFile.corrupt) ∧
    (env.pathOk = true → env.createOk = true → env.serOk = true →
      env.writeOk = true →
      (set_current_tab env o fs tab).2 = OptionsFile.saved { o with tab := tab }) := by
  have hb := fun d => optionsSave_behavior env d fs
  refine ⟨rfl, rfl, rfl, rfl, rfl, ?_, ?_, ?_⟩
  · intro h
    refine ⟨(hb _).1 h, (hb _).1 h, (hb _).1 h, (hb _).1 h, ?_, (hb _).1 h, (hb _).1 h⟩
    unfold add_extern_command
    by_cases hex : (o.extern_cmds.find? (fun i => i.1 = cmd)).isSome
    · rw [if_pos hex]
    · rw [if_neg hex]
      exact (hb _).1 h
  · intro h1 h2 h3
    exact (hb _).2.2 h1 h2 h3
  · intro h1 h2 h3 h4
    exact (hb _).2.1 h1 h2 h3 h4

theorem options_mutations_spec_witness :
    ((set_current_tab (SaveEnv.mk true true true true) optData0
        OptionsFile.missing 2).1 = { optData0 with tab := 2 } ∧
      (set_status_show_untracked (SaveEnv.mk true true true true) optData0
          OptionsFile.missing (some ShowUntrackedM.all)).1 =
        { optData0 with status_show_untracked := some ShowUntrackedM.all } ∧
      (diff_toggle_whitespace (SaveEnv.mk true true true true) optData0
          OptionsFile.missing).1 =
        { optData0 with diff :=
            { optData0.diff with
                ignore_whitespace := !optData0.diff.ignore_whitespace } } ∧
      (options_add_commit_msg (SaveEnv.mk true true true true) optData0
          OptionsFile.missing "m").1 =
        { optData0 with commit_msgs := add_commit_msg optData0.commit_msgs "m" } ∧
      (set_current_tab (SaveEnv.mk true true true true) optData0
          OptionsFile.missing 2).2 =
        optionsSave (SaveEnv.mk true true true true) { optData0 with tab := 2 }
          OptionsFile.missing ∧
      ((SaveEnv.mk true true true true).pathOk = false ∨
          (SaveEnv.mk true true true true).createOk = false →
        (set_current_tab (SaveEnv.mk true true true true) optData0
            OptionsFile.missing 2).2 = OptionsFile.missing ∧
        (set_status_show_untracked (SaveEnv.mk true true true true) optData0
            OptionsFile.missing (some ShowUntrackedM.all)).2 = OptionsFile.missing ∧
        (diff_toggle_whitespace (SaveEnv.mk true true true true) optData0
            OptionsFile.missing).2 = OptionsFile.missing ∧
        (diff_context_change (SaveEnv.mk true true true true) optData0
            OptionsFile.missing true).2 = OptionsFile.missing ∧
        (add_extern_command (SaveEnv.mk true true true true) optData0
            OptionsFile.missing "c").2 = OptionsFile.missing ∧
        (assign_shortcut_for_branch (SaveEnv.mk true true true true) optData0
            OptionsFile.missing "b" (1, 0)).2 = OptionsFile.missing ∧
        (options_add_commit_msg (SaveEnv.mk true true true true) optData0
            OptionsFile.missing "m").2 = OptionsFile.missing) ∧
      ((SaveEnv.mk true true true true).pathOk = true →
        (SaveEnv.mk true true true true).createOk = true →
        ((SaveEnv.mk true true true true).serOk = false ∨
          (SaveEnv.mk true true true true).writeOk = false) →
        (set_current_tab (SaveEnv.mk true true true true) optData0
            OptionsFile.missing 2).2 = OptionsFile.corrupt) ∧
      ((SaveEnv.mk true true true true).pathOk = true →
        (SaveEnv.mk true true true true).createOk = true →
        (SaveEnv.mk true true true true).serOk = true →
        (SaveEnv.mk true true true true).writeOk = true →
        (set_current_tab (SaveEnv.mk true true true true) optData0
            OptionsFile.missing 2).2 = OptionsFile.saved { optData0 with tab := 2 })) :=
  options_mutations_spec (SaveEnv.mk true true true true) optData0
    OptionsFile.missing 2 (some ShowUntrackedM.all) "c" "b" "m" (1, 0)

/-! ## Rebase todo parsing and mutation (src/asyncgit/src/sync/extern_git.rs)

A todo file is modelled as the list of its lines, each line a
`List Char`.  `RebaseCommit::try_parse` splits a line on ASCII
whitespace, parses the first word as an operation, takes the second word
as the short hash and the third word with surrounding `"` trimmed as the
full hash; extra words are ignored.  `parse_rebase_todo` silently drops
lines that fail to parse; `write_rebase_todo` writes each commit's
canonical form. -/

/-- `char::is_ascii_whitespace`: space, tab, LF, FF, CR. -/
def isAsciiWs (c : Char) : Bool :=
  c = ' ' || c = '\t' || c = '\n' || c = '\x0c' || c = '\r'

/-- `str::split_ascii_whitespace`, accumulator form (the accumulator holds
the current word reversed). -/
def splitWsAux : List Char → List Char → List (List Char)
  | [], acc => if acc.isEmpty then [] else [acc.reverse]
  | ch :: t, acc =>
    if isAsciiWs ch then
      if acc.isEmpty then splitWsAux t [] else acc.reverse :: splitWsAux t []
    else splitWsAux t (ch :: acc)

def split_ascii_whitespace (s : List Char) : List (List Char) :=
  splitWsAux s []

inductive InteractiveOperation where
  | Pick
  | Reword
  | Edit
  | Squash
  | Fixup
  | Exec
  | Break
  | Drop
  | Label
  | Reset
  | Merge
  | UpdateRef
deriving DecidableEq

/-- `InteractiveOperation::try_parse`: the long and short operation tokens
Git writes. -/
def InteractiveOperation.try_parse (w : List Char) :
    Except (List Char) InteractiveOperation :=
  if w = "pick".toList ∨ w = "p".toList then Except.ok InteractiveOperation.Pick
  else if w = "reword".toList ∨ w = "r".toList then Except.ok InteractiveOperation.Reword
  else if w = "edit".toList ∨ w = "e".toList then Except.ok InteractiveOperation.Edit
  else if w = "squash".toList ∨ w = "s".toList then Except.ok InteractiveOperation.Squash
  else if w = "fixup".toList ∨ w = "f".toList then Except.ok InteractiveOperation.Fixup
  else if w = "exec".toList ∨ w = "x".toList then Except.ok InteractiveOperation.Exec
  else if w = "break".toList ∨ w = "b".toList then Except.ok InteractiveOperation.Break
  else if w = "drop".toList ∨ w = "d".toList then Except.ok InteractiveOperation.Drop
  else if w = "label".toList ∨ w = "l".toList then Except.ok InteractiveOperation.Label
  else if w = "reset".toList ∨ w = "t".toList then Except.ok InteractiveOperation.Reset
  else if w = "merge".toList ∨ w = "m".toList then Except.ok InteractiveOperation.Merge
  else if w = "update-ref".toList ∨ w = "u".toList then
    Except.ok InteractiveOperation.UpdateRef
  else Except.error ("Unknown operation: ".toList ++ w)

/-- `InteractiveOperation::to_string`: the long token. -/
def InteractiveOperation.to_string : InteractiveOperation → List Char
  | InteractiveOperation.Pick => "pick".toList
  | InteractiveOperation.Reword => "reword".toList
  | InteractiveOperation.Edit => "edit".toList
  | InteractiveOperation.Squash => "squash".toList
  | InteractiveOperation.Fixup => "fixup".toList
  | InteractiveOperation.Exec => "exec".toList
  | InteractiveOperation.Break => "break".toList
  | InteractiveOperation.Drop => "drop".toList
  | InteractiveOperation.Label => "label".toList
  | InteractiveOperation.Reset => "reset".toList
  | InteractiveOperation.Merge => "merge".toList
  | InteractiveOperation.UpdateRef => "update-ref".toList

/-- The accepted operation tokens (long and short forms). -/
def acceptedOperationTokens : List (List Char) :=
  ["pick".toList, "p".toList, "reword".toList, "r".toList, "edit".toList,
    "e".toList, "squash".toList, "s".toList, "fixup".toList, "f".toList,
    "exec".toList, "x".toList, "break".toList, "b".toList, "drop".toList,
    "d".toList, "label".toList, "l".toList, "reset".toList, "t".toList,
    "merge".toList, "m".toList, "update-ref".toList, "u".toList]

structure RebaseCommit where
  op : InteractiveOperation
  hash : List Char
  full_hash : List Char
deriving DecidableEq

/-- `RebaseCommit::change_op`. -/
def RebaseCommit.change_op (c : RebaseCommit) (op : InteractiveOperation) :
    RebaseCommit :=
  { op := op, hash := c.hash, full_hash := c.full_hash }

/-- `str::trim_matches('"')`: remove all leading and trailing `"`. -/
def trimQuotes (s : List Char) : List Char :=
  ((s.dropWhile (fun c => c = '"')).reverse.dropWhile (fun c => c = '"')).reverse

/-- `RebaseCommit::try_parse`: operation word, short hash word, quoted
full-hash word; later words are ignored. -/
def RebaseCommit.try_parse (l : List Char) : Except (List Char) RebaseCommit :=
  match split_ascii_whitespace l with
  | [] => Except.error ("no op".toList)
  | w :: rest =>
    match InteractiveOperation.try_parse w with
    | Except.error e => Except.error e
    | Except.ok op =>
      match rest with
      | [] => Except.error ("no short hash".toList)
      | h :: rest2 =>
        match rest2 with
        | [] => Except.error ("no full hash".toList)
        | fh :: _ =>
          Except.ok { op := op, hash := h, full_hash := trimQuotes fh }

/-- `RebaseCommit::to_string`: `format!("{} {} \"{}\"", op, hash, full)`. -/
def RebaseCommit.to_string (c : RebaseCommit) : List Char :=
  c.op.to_string ++ [' '] ++ c.hash ++ [' ', '"'] ++ c.full_hash ++ ['"']

/-- `parse_rebase_todo`: lines failing to parse are silently dropped. -/
def parse_rebase_todo (lines : List (List Char)) : List RebaseCommit :=
  lines.filterMap (fun l => (RebaseCommit.try_parse l).toOption)

/-- `write_rebase_todo`: one canonical line per commit. -/
def write_rebase_todo (cs : List RebaseCommit) : List (List Char) :=
  cs.map RebaseCommit.to_string

/-- The todo mutator shared by `rebase_drop_commits` and
`rebase_fixup_commits`: parse, switch the operation of commits whose full
hash is in the target set, write back. -/
def mutate_rebase_todo (newOp : InteractiveOperation) (lines : List (List Char))
    (hashed_commits : List (List Char)) : List (List Char) :=
  write_rebase_todo
    ((parse_rebase_todo lines).map
      (fun c =>
        if hashed_commits.contains c.full_hash then c.change_op newOp else c))

/-- The mutator of `rebase_drop_commits`. -/
def rebase_drop_commits_mutator (lines hashed_commits : List (List Char)) :
    List (List Char) :=
  mutate_rebase_todo InteractiveOperation.Drop lines hashed_commits

/-- The mutator of `rebase_fixup_commits`. -/
def rebase_fixup_commits_mutator (lines hashed_commits : List (List Char)) :
    List (List Char) :=
  mutate_rebase_todo InteractiveOperation.Fixup lines hashed_commits

/-- Well-formedness of a parsed rebase commit: the short hash is a
non-empty whitespace-free token, the full hash is whitespace-free and has
no leading or trailing quote. -/
def RebaseCommit.WF (c : RebaseCommit) : Prop :=
  c.hash ≠ [] ∧ (∀ ch ∈ c.hash, isAsciiWs ch = false) ∧
    (∀ ch ∈ c.full_hash, isAsciiWs ch = false) ∧
    c.full_hash.head? ≠ some '"' ∧ c.full_hash.getLast? ≠ some '"'

theorem splitWsAux_tokens (s : List Char) :
    ∀ acc : List Char, (∀ c ∈ acc, isAsciiWs c = false) →
    ∀ t ∈ splitWsAux s acc, t ≠ [] ∧ ∀ c ∈ t, isAsciiWs c = false := by
  induction s with
  | nil =>
    intro acc hacc t ht
    by_cases he : acc.isEmpty = true
    · rw [splitWsAux, if_pos he] at ht
      exact absurd ht (List.not_mem_nil t)
    · rw [splitWsAux, if_neg he] at ht
      rw [List.mem_singleton] at ht
      subst ht
      refine ⟨?_, ?_⟩
      · intro hrev
        rw [List.reverse_eq_nil_iff] at hrev
        rw [hrev] at he
        exact he rfl
      · intro c hc
        exact hacc c (List.mem_reverse.mp hc)
  | cons ch rest ih =>
    intro acc hacc t ht
    by_cases hws : isAsciiWs ch = true
    · rw [splitWsAux, if_pos hws] at ht
      by_cases he : acc.isEmpty = true
      · rw [if_pos he] at ht
        exact ih [] (by intro c hc; exact absurd hc (List.not_mem_nil c)) t ht
      · rw [if_neg he] at ht
        rcases List.mem_cons.mp ht with ht2 | ht2
        · subst ht2
          refine ⟨?_, ?_⟩
          · intro hrev
            rw [List.reverse_eq_nil_iff] at hrev
            rw [hrev] at he
            exact he rfl
          · intro c hc
            exact hacc c (List.mem_reverse.mp hc)
        · exact ih [] (by intro c hc; exact absurd hc (List.not_mem_nil c)) t ht2
    · rw [splitWsAux, if_neg hws] at ht
      refine ih (ch :: acc) ?_ t ht
      intro c hc
      rcases List.mem_cons.mp hc with hc | hc
      · subst hc
        exact Bool.eq_false_iff.mpr hws
      · exact hacc c hc

theorem split_ascii_whitespace_tokens (s : List Char) :
    ∀ t ∈ split_ascii_whitespace s, t ≠ [] ∧ ∀ c ∈ t, isAsciiWs c = false :=
  splitWsAux_tokens s [] (by intro c hc; exact absurd hc (List.not_mem_nil c))

theorem splitWsAux_word_append (w : List Char)
    (hw : ∀ c ∈ w, isAsciiWs c = false) :
    ∀ (s acc : List Char), splitWsAux (w ++ s) acc = splitWsAux s (w.reverse ++ acc) := by
  induction w with
  | nil =>
    intro s acc
    simp only [List.nil_append, List.reverse_nil]
  | cons ch t ih =>
    intro s acc
    have hch : isAsciiWs ch = false := hw ch (by simp)
    have ht : ∀ c ∈ t, isAsciiWs c = false := fun c hc => hw c (by simp [hc])
    rw [List.cons_append, splitWsAux, if_neg (by rw [hch]; exact Bool.false_ne_true)]
    rw [ih ht s (ch :: acc)]
    congr 1
    simp

theorem splitWsAux_single_word (w : List Char) (hne : w ≠ [])
    (hw : ∀ c ∈ w, isAsciiWs c = false) :
    splitWsAux w [] = [w] := by
  have h := splitWsAux_word_append w hw [] []
  rw [List.append_nil] at h
  rw [h, splitWsAux, List.append_nil,
    if_neg (by simp only [List.isEmpty_eq_true, List.reverse_eq_nil_iff]; exact hne)]
  rw [List.reverse_reverse]

theorem split_three_words (w1 w2 w3 : List Char)
    (h1 : w1 ≠ []) (hw1 : ∀ c ∈ w1, isAsciiWs c = false)
    (h2 : w2 ≠ []) (hw2 : ∀ c ∈ w2, isAsciiWs c = false)
    (h3 : w3 ≠ []) (hw3 : ∀ c ∈ w3, isAsciiWs c = false) :
    split_ascii_whitespace (w1 ++ ' ' :: (w2 ++ ' ' :: w3)) = [w1, w2, w3] := by
  unfold split_ascii_whitespace
  rw [splitWsAux_word_append w1 hw1, List.append_nil]
  rw [splitWsAux, if_pos (show isAsciiWs ' ' = true by decide),
    if_neg (by simp only [List.isEmpty_eq_true, List.reverse_eq_nil_iff]; exact h1)]
  rw [List.reverse_reverse]
  rw [splitWsAux_word_append w2 hw2, List.append_nil]
  rw [splitWsAux, if_pos (show isAsciiWs ' ' = true by decide),
    if_neg (by simp only [List.isEmpty_eq_true, List.reverse_eq_nil_iff]; exact h2)]
  rw [List.reverse_reverse]
  rw [splitWsAux_single_word w3 h3 hw3]

theorem getLast?_dropWhile_of_ne_nil {α : Type} (p : α → Bool) (l : List α)
    (h : l.dropWhile p ≠ []) : (l.dropWhile p).getLast? = l.getLast? := by
  induction l with
  | nil => simp only [List.dropWhile_nil, ne_eq, not_true_eq_false] at h
  | cons a t ih =>
    by_cases hp : p a = true
    · rw [List.dropWhile_cons, if_pos hp] at h ⊢
      rw [ih h]
      have ht : t ≠ [] := by
        intro he
        rw [he] at h
        simp only [List.dropWhile_nil, ne_eq, not_true_eq_false] at h
      cases hgl : t.getLast? with
      | none => exact absurd (List.getLast?_eq_none_iff.mp hgl) ht
      | some x => rw [List.getLast?_cons, hgl]; rfl
    · rw [List.dropWhile_cons, if_neg hp]

theorem mem_trimQuotes (s : List Char) (c : Char) (h : c ∈ trimQuotes s) : c ∈ s := by
  unfold trimQuotes at h
  rw [List.mem_reverse] at h
  have h2 := (List.dropWhile_sublist (l := (s.dropWhile (fun c => c = '"')).reverse)
    (p := fun c => c = '"')).mem h
  rw [List.mem_reverse] at h2
  exact (List.dropWhile_sublist (l := s) (p := fun c => c = '"')).mem h2

theorem head?_dropWhile_eq_some {α : Type} (p : α → Bool) (l : List α) (x : α)
    (h : (l.dropWhile p).head? = some x) : p x = false := by
  have hm := List.head?_dropWhile_not p l
  rw [h] at hm
  exact hm

theorem trimQuotes_head?_ne (s : List Char) :
    (trimQuotes s).head? ≠ some '"' := by
  unfold trimQuotes
  intro hcon
  rw [List.head?_reverse] at hcon
  have hne : (s.dropWhile (fun c => c = '"')).reverse.dropWhile (fun c => c = '"') ≠ [] := by
    intro he
    rw [he] at hcon
    exact absurd hcon (by simp)
  rw [getLast?_dropWhile_of_ne_nil _ _ hne, List.getLast?_reverse] at hcon
  have hq := head?_dropWhile_eq_some _ _ _ hcon
  simp only [decide_eq_false_iff_not, not_true_eq_false] at hq

theorem trimQuotes_getLast?_ne (s : List Char) :
    (trimQuotes s).getLast? ≠ some '"' := by
  unfold trimQuotes
  intro hcon
  rw [List.getLast?_reverse] at hcon
  have hq := head?_dropWhile_eq_some _ _ _ hcon
  simp only [decide_eq_false_iff_not, not_true_eq_false] at hq

theorem trimQuotes_quoted (full : List Char)
    (hh : full.head? ≠ some '"') (hl : full.getLast? ≠ some '"') :
    trimQuotes ('"' :: (full ++ ['"'])) = full := by
  unfold trimQuotes
  rw [List.dropWhile_cons, if_pos (by decide)]
  cases full with
  | nil => decide
  | cons f fr =>
    have hf : f ≠ '"' := by
      intro he
      exact hh (by rw [List.head?_cons, he])
    rw [List.cons_append, List.dropWhile_cons,
      if_neg (by simp only [decide_eq_true_eq]; exact hf)]
    have hrev : (f :: (fr ++ ['"'])).reverse = '"' :: (f :: fr).reverse := by
      rw [← List.cons_append, List.reverse_append]
      simp
    rw [hrev, List.dropWhile_cons, if_pos (by decide)]
    cases hr : (f :: fr).reverse with
    | nil => exact absurd (List.reverse_eq_nil_iff.mp hr) (by simp)
    | cons r0 rt =>
      have hr0 : r0 ≠ '"' := by
        intro he
        apply hl
        rw [← List.head?_reverse, hr, List.head?_cons, he]
      rw [List.dropWhile_cons, if_neg (by simp only [decide_eq_true_eq]; exact hr0)]
      rw [← hr, List.reverse_reverse]

theorem op_to_string_parse (op : InteractiveOperation) :
    InteractiveOperation.try_parse op.to_string = Except.ok op := by
  cases op <;> rfl

theorem op_to_string_ne_nil (op : InteractiveOperation) : op.to_string ≠ [] := by
  cases op <;> decide

theorem op_to_string_wsfree (op : InteractiveOperation) :
    ∀ c ∈ op.to_string, isAsciiWs c = false := by
  cases op <;> decide

theorem rebase_try_parse_wf (l : List Char) (c : RebaseCommit)
    (h : RebaseCommit.try_parse l = Except.ok c) : c.WF := by
  unfold RebaseCommit.try_parse at h
  cases htok : split_ascii_whitespace l with
  | nil => rw [htok] at h; exact absurd h (by simp)
  | cons w rest =>
    rw [htok] at h
    dsimp only at h
    cases hop : InteractiveOperation.try_parse w with
    | error e => rw [hop] at h; exact absurd h (by simp)
    | ok op =>
      rw [hop] at h
      cases rest with
      | nil => exact absurd h (by simp)
      | cons hsh rest2 =>
        cases rest2 with
        | nil => exact absurd h (by simp)
        | cons fh rest3 =>
          simp only [Except.ok.injEq] at h
          subst h
          have hhash := split_ascii_whitespace_tokens l hsh
            (by rw [htok]; simp)
          have hfh := split_ascii_whitespace_tokens l fh
            (by rw [htok]; simp)
          refine ⟨hhash.1, hhash.2, ?_, ?_, ?_⟩
          · intro ch hch
            exact hfh.2 ch (mem_trimQuotes fh ch hch)
          · exact trimQuotes_head?_ne fh
          · exact trimQuotes_getLast?_ne fh

theorem rebase_to_string_parse (c : RebaseCommit) (hwf : c.WF) :
    RebaseCommit.try_parse c.to_string = Except.ok c := by
  obtain ⟨hne, hws, hfws, hfh, hfl⟩ := hwf
  have hshape : c.to_string =
      c.op.to_string ++ ' ' :: (c.hash ++ ' ' :: ('"' :: (c.full_hash ++ ['"']))) := by
    unfold RebaseCommit.to_string
    simp [List.append_assoc]
  have hsplit : split_ascii_whitespace c.to_string =
      [c.op.to_string, c.hash, '"' :: (c.full_hash ++ ['"'])] := by
    rw [hshape]
    refine split_three_words _ _ _ (op_to_string_ne_nil c.op)
      (op_to_string_wsfree c.op) hne hws (by simp) ?_
    intro ch hch
    rcases List.mem_cons.mp hch with hch | hch
    · subst hch; decide
    · rcases List.mem_append.mp hch with hch | hch
      · exact hfws ch hch
      · rw [List.mem_singleton] at hch
        subst hch; decide
  unfold RebaseCommit.try_parse
  rw [hsplit]
  simp only [op_to_string_parse c.op]
  rw [trimQuotes_quoted c.full_hash hfh hfl]

theorem filterMap_id_of_mem {α : Type} (f : α → Option α) :
    ∀ l : List α, (∀ c ∈ l, f c = some c) → l.filterMap f = l := by
  intro l
  induction l with
  | nil => intro _; rfl
  | cons a t ih =>
    intro h
    rw [List.filterMap_cons, h a (by simp)]
    rw [ih (fun c hc => h c (by simp [hc]))]

theorem parse_write_rebase_todo (cs : List RebaseCommit)
    (h : ∀ c ∈ cs, c.WF) :
    parse_rebase_todo (write_rebase_todo cs) = cs := by
  unfold parse_rebase_todo write_rebase_todo
  rw [List.filterMap_map]
  refine filterMap_id_of_mem _ cs ?_
  intro c hc
  show (RebaseCommit.try_parse c.to_string).toOption = some c
  rw [rebase_to_string_parse c (h c hc)]
  rfl

theorem parse_rebase_todo_wf (lines : List (List Char)) :
    ∀ c ∈ parse_rebase_todo lines, c.WF := by
  intro c hc
  unfold parse_rebase_todo at hc
  obtain ⟨l, _, hl⟩ := List.mem_filterMap.mp hc
  cases hp : RebaseCommit.try_parse l with
  | error e => rw [hp] at hl; exact absurd hl (by simp [Except.toOption])
  | ok c2 =>
    rw [hp] at hl
    simp only [Except.toOption, Option.some.injEq] at hl
    exact hl ▸ rebase_try_parse_wf l c2 hp

theorem mutate_rebase_todo_parse (newOp : InteractiveOperation)
    (lines hashed_commits : List (List Char)) :
    parse_rebase_todo (mutate_rebase_todo newOp lines hashed_commits) =
      (parse_rebase_todo lines).map
        (fun c =>
          if hashed_commits.contains c.full_hash then c.change_op newOp else c) := by
  unfold mutate_rebase_todo
  refine parse_write_rebase_todo _ ?_
  intro c hc
  obtain ⟨c0, hc0, hmap⟩ := List.mem_map.mp hc
  have hwf0 := parse_rebase_todo_wf lines c0 hc0
  by_cases hmem : hashed_commits.contains c0.full_hash
  · rw [if_pos hmem] at hmap
    subst hmap
    exact ⟨hwf0.1, hwf0.2.1, hwf0.2.2.1, hwf0.2.2.2.1, hwf0.2.2.2.2⟩
  · rw [if_neg hmem] at hmap
    subst hmap
    exact hwf0

/-- C1: for every todo file (list of lines) and every target set of full
hashes, the drop and fixup mutators leave a written-back todo whose parse
has exactly the same number of lines in the same order; position by
position the short hash and full hash are unchanged, and the operation is
`Drop` (respectively `Fixup`) exactly when the line's full hash is in the
target set, the original operation otherwise. -/
theorem rebase_drop_fixup_mutators_spec (lines hashed_commits : List (List Char)) :
    ((parse_rebase_todo (rebase_drop_commits_mutator lines hashed_commits)).length =
        (parse_rebase_todo lines).length ∧
      (parse_rebase_todo (rebase_fixup_commits_mutator lines hashed_commits)).length =
        (parse_rebase_todo lines).length) ∧
    (∀ i : Nat, ∀ c0 : RebaseCommit,
      (parse_rebase_todo lines)[i]? = some c0 →
      (parse_rebase_todo (rebase_drop_commits_mutator lines hashed_commits))[i]? =
        some { op := if hashed_commits.contains c0.full_hash then
                  InteractiveOperation.Drop else c0.op,
               hash := c0.hash, full_hash := c0.full_hash } ∧
      (parse_rebase_todo (rebase_fixup_commits_mutator lines hashed_commits))[i]? =
        some { op := if hashed_commits.contains c0.full_hash then
                  InteractiveOperation.Fixup else c0.op,
               hash := c0.hash, full_hash := c0.full_hash }) := by
  unfold rebase_drop_commits_mutator rebase_fixup_commits_mutator
  rw [mutate_rebase_todo_parse, mutate_rebase_todo_parse]
  refine ⟨⟨by simp, by simp⟩, ?_⟩
  intro i c0 hi
  rw [List.getElem?_map, List.getElem?_map, hi]
  constructor
  · simp only [Option.map_some']
    congr 1
    by_cases hmem : hashed_commits.contains c0.full_hash
    · rw [if_pos hmem, if_pos hmem]
      rfl
    · rw [if_neg hmem, if_neg hmem]
  · simp only [Option.map_some']
    congr 1
    by_cases hmem : hashed_commits.contains c0.full_hash
    · rw [if_pos hmem, if_pos hmem]
      rfl
    · rw [if_neg hmem, if_neg hmem]

theorem op_try_parse_not_accepted (w : List Char)
    (h : acceptedOperationTokens.contains w = false) :
    InteractiveOperation.try_parse w =
      Except.error ("Unknown operation: ".toList ++ w) := by
  have hm : w ∉ acceptedOperationTokens := by
    intro hmem
    have hc : acceptedOperationTokens.contains w = true := List.elem_iff.mpr hmem
    rw [h] at hc
    exact Bool.false_ne_true hc
  unfold InteractiveOperation.try_parse
  repeat
    rw [if_neg (fun hor => hm (by
      rcases hor with h1 | h1 <;> subst h1 <;> simp [acceptedOperationTokens]))]

/-- C3: (a) any `RebaseCommit` obtained by successfully parsing a todo
line serializes via `to_string` (long operation token, short hash, full
hash in double quotes) back to a line that re-parses to the same value
(same operation, short hash and full hash); (b) every line whose first
whitespace-separated word is not one of the accepted long or short
operation tokens fails to parse with the descriptive `Unknown operation`
error naming the word. -/
theorem rebase_todo_roundtrip_spec :
    (∀ (l : List Char) (c : RebaseCommit),
      RebaseCommit.try_parse l = Except.ok c →
      RebaseCommit.try_parse c.to_string = Except.ok c) ∧
    (∀ (l w : List Char) (rest : List (List Char)),
      split_ascii_whitespace l = w :: rest →
      acceptedOperationTokens.contains w = false →
      RebaseCommit.try_parse l =
        Except.error ("Unknown operation: ".toList ++ w)) := by
  constructor
  · intro l c h
    exact rebase_to_string_parse c (rebase_try_parse_wf l c h)
  · intro l w rest hsplit hnot
    unfold RebaseCommit.try_parse
    rw [hsplit]
    dsimp only
    rw [op_try_parse_not_accepted w hnot]

/-! ## IPC shared-memory channel (src/asyncgit/src/sync/extern_git.rs)

The 4096-byte region is modelled as a `List Nat` of bytes.  The two
event objects occupy the recorded sizes `e_ready_size` and
`e_shutdown_size` at the start; `str_offset` is their sum.  `set_str`
stores the string length as a `usize` (8 little-endian bytes) at
`str_offset` and the UTF-8 bytes right after; `get_str` reads them back
(the fixed indexing form `str_bytes_from..str_bytes_from + str_len`),
`none` marking the slice panic for out-of-range bounds, and the
`from_utf8(..).unwrap_or("")` fallback mapping invalid bytes to the
empty string. -/

def SHMEM_SIZE : Nat := 4096

/-- `std::mem::size_of::<usize>()` on the 64-bit targets gitui builds for. -/
def USIZE_SIZE : Nat := 8

structure IPCEvents where
  e_ready_size : Nat
  e_shutdown_size : Nat
  mem : List Nat

def IPCEvents.str_offset (ipc : IPCEvents) : Nat :=
  ipc.e_ready_size + ipc.e_shutdown_size

/-- A `usize` value as `k` little-endian bytes. -/
def natToLe : Nat → Nat → List Nat
  | 0, _ => []
  | k + 1, n => (n % 256) :: natToLe k (n / 256)

/-- Read a little-endian byte list back as a `Nat`. -/
def leToNat : List Nat → Nat
  | [] => 0
  | b :: t => b + 256 * leToNat t

/-- Write `bs` into `mem` starting at byte offset `off` (slice assignment). -/
def writeBytes (mem : List Nat) (off : Nat) (bs : List Nat) : List Nat :=
  mem.take off ++ bs ++ mem.drop (off + bs.length)

/-- Read `len` bytes from `mem` starting at byte offset `off`. -/
def readBytes (mem : List Nat) (off len : Nat) : List Nat :=
  (mem.drop off).take len

/-- `std::str::from_utf8` as a decoder to unicode scalar values: `none`
for invalid UTF-8 (continuation errors, overlong forms, surrogates,
out-of-range). -/
def utf8Decode : List Nat → Option (List Nat)
  | [] => some []
  | b :: rest =>
    if b < 0x80 then (utf8Decode rest).map (fun cs => b :: cs)
    else if b < 0xC2 then none
    else if b < 0xE0 then
      match rest with
      | b1 :: rest2 =>
        if 0x80 ≤ b1 ∧ b1 < 0xC0 then
          (utf8Decode rest2).map (fun cs => ((b - 0xC0) * 64 + (b1 - 0x80)) :: cs)
        else none
      | [] => none
    else if b < 0xF0 then
      match rest with
      | b1 :: b2 :: rest3 =>
        if (0x80 ≤ b1 ∧ b1 < 0xC0) ∧ (0x80 ≤ b2 ∧ b2 < 0xC0) then
          let c := (b - 0xE0) * 4096 + (b1 - 0x80) * 64 + (b2 - 0x80)
          if 0x800 ≤ c ∧ (c < 0xD800 ∨ 0xE000 ≤ c) then
            (utf8Decode rest3).map (fun cs => c :: cs)
          else none
        else none
      | _ => none
    else if b < 0xF5 then
      match rest with
      | b1 :: b2 :: b3 :: rest4 =>
        if (0x80 ≤ b1 ∧ b1 < 0xC0) ∧ (0x80 ≤ b2 ∧ b2 < 0xC0) ∧
            (0x80 ≤ b3 ∧ b3 < 0xC0) then
          let c := (b - 0xF0) * 0x40000 + (b1 - 0x80) * 4096 +
            (b2 - 0x80) * 64 + (b3 - 0x80)
          if 0x10000 ≤ c ∧ c < 0x110000 then
            (utf8Decode rest4).map (fun cs => c :: cs)
          else none
        else none
      | _ => none
    else none

/-- A byte list is a valid UTF-8 string. -/
def isValidUtf8 (bs : List Nat) : Bool :=
  (utf8Decode bs).isSome

/-- `IPCEvents::get_str` (fixed indexing form): read the `usize` length
at `str_offset`, then that many bytes from
`str_offset + size_of::<usize>()`; `none` is the slice panic when the
range exceeds the region, and invalid UTF-8 collapses to `""` via
`unwrap_or`. -/
def IPCEvents.get_str (ipc : IPCEvents) : Option (List Nat) :=
  let str_len := leToNat (readBytes ipc.mem ipc.str_offset USIZE_SIZE)
  let str_bytes_from := ipc.str_offset + USIZE_SIZE
  if str_bytes_from + str_len ≤ ipc.mem.length then
    let str_bytes := readBytes ipc.mem str_bytes_from str_len
    some (if isValidUtf8 str_bytes then str_bytes else [])
  else none

/-- `IPCEvents::set_str`: length check first (error leaves the region
untouched), then store the length and the bytes. -/
def IPCEvents.set_str (ipc : IPCEvents) (s : List Nat) :
    Except String Unit × IPCEvents :=
  if s.length > SHMEM_SIZE - ipc.str_offset - USIZE_SIZE then
    (Except.error "String is too big", ipc)
  else
    let mem1 := writeBytes ipc.mem ipc.str_offset (natToLe USIZE_SIZE s.length)
    let mem2 := writeBytes mem1 (ipc.str_offset + USIZE_SIZE) s
    (Except.ok (), { ipc with mem := mem2 })

theorem natToLe_length (k n : Nat) : (natToLe k n).length = k := by
  induction k generalizing n with
  | zero => rfl
  | succ k ih => simp only [natToLe, List.length_cons, ih]

theorem leToNat_natToLe (k n : Nat) (h : n < 2 ^ (8 * k)) :
    leToNat (natToLe k n) = n := by
  induction k generalizing n with
  | zero =>
    simp only [Nat.mul_zero, pow_zero, Nat.lt_one_iff] at h
    subst h
    rfl
  | succ k ih =>
    have hdiv : n / 256 < 2 ^ (8 * k) := by
      rw [Nat.div_lt_iff_lt_mul (by norm_num)]
      calc n < 2 ^ (8 * (k + 1)) := h
        _ = 2 ^ (8 * k) * 256 := by rw [Nat.mul_succ, pow_add]; norm_num
    simp only [natToLe, leToNat, ih (n / 256) hdiv]
    omega

theorem writeBytes_length (mem : List Nat) (off : Nat) (bs : List Nat)
    (h : off + bs.length ≤ mem.length) :
    (writeBytes mem off bs).length = mem.length := by
  unfold writeBytes
  simp only [List.length_append, List.length_take, List.length_drop]
  omega

theorem readBytes_writeBytes_exact (mem : List Nat) (off : Nat) (bs : List Nat)
    (h : off + bs.length ≤ mem.length) :
    readBytes (writeBytes mem off bs) off bs.length = bs := by
  unfold readBytes writeBytes
  have h1 : (mem.take off).length = off := by
    rw [List.length_take]
    omega
  rw [List.append_assoc]
  rw [List.drop_append_of_le_length (by omega)]
  have h2 : (mem.take off).drop off = [] := by
    apply List.drop_eq_nil_of_le
    omega
  rw [h2, List.nil_append, List.take_left]

theorem readBytes_writeBytes_before (mem : List Nat) (off len o2 : Nat)
    (bs : List Nat) (hlt : off + len ≤ o2) (ho2 : o2 ≤ mem.length) :
    readBytes (writeBytes mem o2 bs) off len = readBytes mem off len := by
  unfold readBytes writeBytes
  have h1 : (mem.take o2).length = o2 := by
    rw [List.length_take]
    omega
  rw [List.append_assoc]
  rw [List.drop_append_of_le_length (by omega)]
  rw [List.take_append_of_le_length (by rw [List.length_drop, h1]; omega)]
  rw [List.drop_take]
  rw [List.take_take]
  congr 1
  omega

theorem readBytes_writeBytes_exact2 (mem : List Nat) (off k : Nat) (bs : List Nat)
    (h : off + bs.length ≤ mem.length) (hk : k = bs.length) :
    readBytes (writeBytes mem off bs) off k = bs := by
  subst hk
  exact readBytes_writeBytes_exact mem off bs h

/-- C2: for every shared-memory state of 4096 bytes with recorded event
sizes `r` and `s` (with `r + s + 8 ≤ 4096`) and every valid UTF-8 byte
string `bs`: when `bs` fits (length at most `4096 - r - s - 8`),
`set_str` succeeds and a subsequent `get_str` (fixed indexing form)
returns exactly `bs`; when `bs` is longer, `set_str` returns the
"String is too big" error and leaves the region untouched. -/
theorem ipc_set_get_str_spec (r s : Nat) (mem bs : List Nat)
    (hmem : mem.length = SHMEM_SIZE)
    (hoff : r + s + USIZE_SIZE ≤ SHMEM_SIZE)
    (hvalid : isValidUtf8 bs = true) :
    (bs.length ≤ SHMEM_SIZE - (r + s) - USIZE_SIZE →
      ((IPCEvents.mk r s mem).set_str bs).1 = Except.ok () ∧
      ((IPCEvents.mk r s mem).set_str bs).2.get_str = some bs) ∧
    (bs.length > SHMEM_SIZE - (r + s) - USIZE_SIZE →
      ((IPCEvents.mk r s mem).set_str bs).1 = Except.error "String is too big" ∧
      ((IPCEvents.mk r s mem).set_str bs).2 = IPCEvents.mk r s mem) := by
  have hoffv : (IPCEvents.mk r s mem).str_offset = r + s := rfl
  have hS : SHMEM_SIZE = 4096 := rfl
  have hU : USIZE_SIZE = 8 := rfl
  constructor
  · intro hlen
    have hcond : ¬ (bs.length > SHMEM_SIZE - (IPCEvents.mk r s mem).str_offset - USIZE_SIZE) := by
      rw [hoffv]
      omega
    unfold IPCEvents.set_str
    rw [if_neg hcond]
    refine ⟨rfl, ?_⟩
    set mem1 := writeBytes mem ((IPCEvents.mk r s mem).str_offset)
      (natToLe USIZE_SIZE bs.length) with hmem1
    set mem2 := writeBytes mem1 ((IPCEvents.mk r s mem).str_offset + USIZE_SIZE) bs
      with hmem2
    have hm1len : mem1.length = mem.length := by
      rw [hmem1]
      apply writeBytes_length
      rw [natToLe_length, hoffv, hmem]
      omega
    have hm2len : mem2.length = mem.length := by
      rw [hmem2]
      rw [writeBytes_length]
      · exact hm1len
      · rw [hm1len, hoffv, hmem]
        omega
    have hreadlen : readBytes mem2 (r + s) USIZE_SIZE = natToLe USIZE_SIZE bs.length := by
      rw [hmem2, hoffv]
      rw [readBytes_writeBytes_before mem1 (r + s) USIZE_SIZE (r + s + USIZE_SIZE) bs
        (le_refl _) (by rw [hm1len, hmem]; omega)]
      rw [hmem1, hoffv]
      exact readBytes_writeBytes_exact2 mem (r + s) USIZE_SIZE _
        (by rw [natToLe_length, hmem]; omega) (natToLe_length _ _).symm
    have hLval : leToNat (readBytes mem2 (r + s) USIZE_SIZE) = bs.length := by
      rw [hreadlen]
      apply leToNat_natToLe
      exact lt_of_le_of_lt (by omega : bs.length ≤ 4096) (by rw [hU]; norm_num)
    have hbytes : readBytes mem2 (r + s + USIZE_SIZE) bs.length = bs := by
      rw [hmem2, hoffv]
      apply readBytes_writeBytes_exact
      rw [hm1len, hmem]
      omega
    show IPCEvents.get_str (IPCEvents.mk r s mem2) = some bs
    unfold IPCEvents.get_str
    have hoffv2 : (IPCEvents.mk r s mem2).str_offset = r + s := rfl
    rw [hoffv2]
    rw [hLval]
    rw [if_pos (by rw [hm2len, hmem]; omega)]
    rw [hbytes]
    simp only [hvalid, if_true]
  · intro hgt
    have hcond : bs.length > SHMEM_SIZE - (IPCEvents.mk r s mem).str_offset - USIZE_SIZE := by
      rw [hoffv]
      omega
    unfold IPCEvents.set_str
    rw [if_pos hcond]
    exact ⟨rfl, rfl⟩

theorem ipc_set_get_str_spec_witness :
    (List.replicate 4096 0 : List Nat).length = SHMEM_SIZE ∧
    16 + 16 + USIZE_SIZE ≤ SHMEM_SIZE ∧
    isValidUtf8 [116, 111, 100, 111] = true ∧
    ((([116, 111, 100, 111] : List Nat).length ≤ SHMEM_SIZE - (16 + 16) - USIZE_SIZE →
        ((IPCEvents.mk 16 16 (List.replicate 4096 0)).set_str [116, 111, 100, 111]).1 =
          Except.ok () ∧
        ((IPCEvents.mk 16 16 (List.replicate 4096 0)).set_str
            [116, 111, 100, 111]).2.get_str = some [116, 111, 100, 111]) ∧
      (([116, 111, 100, 111] : List Nat).length > SHMEM_SIZE - (16 + 16) - USIZE_SIZE →
        ((IPCEvents.mk 16 16 (List.replicate 4096 0)).set_str [116, 111, 100, 111]).1 =
          Except.error "String is too big" ∧
        ((IPCEvents.mk 16 16 (List.replicate 4096 0)).set_str [116, 111, 100, 111]).2 =
          IPCEvents.mk 16 16 (List.replicate 4096 0))) :=
  ⟨by rw [List.length_replicate]; rfl, by decide, by decide,
    ipc_set_get_str_spec 16 16 (List.replicate 4096 0) [116, 111, 100, 111]
      (by rw [List.length_replicate]; rfl) (by decide) (by decide)⟩

/-! ## Log walker (src/asyncgit/src/sync/logwalker.rs)

Commits carry an id, a committer time and parent ids; a repository is a
finite list of commits.  The walker state is the binary heap ordered by
commit time (`TimeOrderedCommit`) and the visited id set.  `read` pops
the newest commit, pushes unseen parents, appends the id when the filter
admits it, and stops on the filtered limit, the limit, an empty heap or
the stopper.  The loop is embedded with explicit fuel; `walkMeasure`
(unvisited repository ids + heap size) strictly decreases per iteration,
so that fuel suffices. -/

structure GCommit where
  id : Nat
  time : Int
  parents : List Nat
deriving DecidableEq

abbrev Repo := List GCommit

def lookupCommit (repo : Repo) (i : Nat) : Option GCommit :=
  repo.find? (fun c => c.id = i)

structure WalkState where
  heap : List GCommit
  visited : Finset Nat
deriving DecidableEq

/-- `BinaryHeap::pop` on the time-ordered heap: removes and returns a
commit of maximal committer time. -/
def popMax : List GCommit → Option (GCommit × List GCommit)
  | [] => none
  | c :: t =>
    match popMax t with
    | none => some (c, [])
    | some (m, rest) => if m.time ≤ c.time then some (c, t) else some (m, c :: rest)

/-- `LogWalker::visit`: push a parent commit unless its id was seen. -/
def visitCommit (repo : Repo) (st : WalkState) (p : Nat) : WalkState :=
  if p ∈ st.visited then st
  else
    match lookupCommit repo p with
    | some c => { heap := c :: st.heap, visited := insert p st.visited }
    | none => st

def repoIds (repo : Repo) : Finset Nat :=
  (repo.map (fun c => c.id)).toFinset

def walkMeasure (repo : Repo) (st : WalkState) : Nat :=
  (repoIds repo \ st.visited).card + st.heap.length

/-- One iteration of the `LogWalker::read` loop, in the source order:
pop, visit parents, filter, push to `out` and check `filtered_limit`
(before `count` is incremented), increment `count` and check `limit`,
check the stopper.  `Sum.inl` is a `break`/empty-heap return with the
final `(out, count, state)`, `Sum.inr` continues the loop. -/
def readStep (repo : Repo) (limit filteredLimit : Nat)
    (filter stopper : Option (GCommit → Bool)) (st : WalkState)
    (count fcount : Nat) (out : List Nat) :
    (List Nat × Nat × WalkState) ⊕ (WalkState × Nat × Nat × List Nat) :=
  match popMax st.heap with
  | none => Sum.inl (out, count, st)
  | some (c, rest) =>
    let st1 := c.parents.foldl (visitCommit repo)
      { heap := rest, visited := st.visited }
    let included := match filter with
      | some f => f c
      | none => true
    let out2 := if included = true then out ++ [c.id] else out
    let fcount2 := if included = true then fcount + 1 else fcount
    if included = true ∧ fcount2 = filteredLimit then Sum.inl (out2, count, st1)
    else
      let count2 := count + 1
      if count2 = limit then Sum.inl (out2, count2, st1)
      else
        let stopped := match stopper with
          | some f => f c
          | none => false
        if stopped = true then Sum.inl (out2, count2, st1)
        else Sum.inr (st1, count2, fcount2, out2)

/-- The `LogWalker::read` loop, fuelled. -/
def readLoopFuel (repo : Repo) (limit filteredLimit : Nat)
    (filter stopper : Option (GCommit → Bool)) :
    Nat → WalkState → Nat → Nat → List Nat → List Nat × Nat × WalkState
  | 0, st, count, _, out => (out, count, st)
  | fuel + 1, st, count, fcount, out =>
    match readStep repo limit filteredLimit filter stopper st count fcount out with
    | Sum.inl r => r
    | Sum.inr (st1, count2, fcount2, out2) =>
      readLoopFuel repo limit filteredLimit filter stopper fuel st1 count2
        fcount2 out2

/-- The walker state `LogWalker::new_with_start` builds: the start commit
on the heap, nothing visited (the start id itself is not marked). -/
def walkInit (c0 : GCommit) : WalkState :=
  { heap := [c0], visited := ∅ }

/-- `LogWalker::read` on a fresh output vector. -/
def logwalker_read (repo : Repo) (limit filteredLimit : Nat)
    (filter stopper : Option (GCommit → Bool)) (st : WalkState) :
    List Nat × Nat × WalkState :=
  readLoopFuel repo limit filteredLimit filter stopper (walkMeasure repo st) st 0 0 []

theorem popMax_none_iff (h : List GCommit) : popMax h = none ↔ h = [] := by
  cases h with
  | nil => simp [popMax]
  | cons c t =>
    simp only [popMax]
    constructor
    · intro hcon
      cases hp : popMax t with
      | none => rw [hp] at hcon; exact absurd hcon (by simp)
      | some pr =>
        rw [hp] at hcon
        obtain ⟨m, rest⟩ := pr
        dsimp only at hcon
        by_cases hle : m.time ≤ c.time
        · rw [if_pos hle] at hcon; exact absurd hcon (by simp)
        · rw [if_neg hle] at hcon; exact absurd hcon (by simp)
    · intro hcon
      exact absurd hcon (by simp)

theorem popMax_cover (h : List GCommit) (c : GCommit) (rest : List GCommit)
    (hp : popMax h = some (c, rest)) :
    c ∈ h ∧ rest.length + 1 = h.length ∧
      (∀ x ∈ h, x = c ∨ x ∈ rest) ∧ (∀ x ∈ rest, x ∈ h) ∧
      (∀ x ∈ rest, x.time ≤ c.time) := by
  induction h generalizing c rest with
  | nil => exact absurd hp (by simp [popMax])
  | cons a t ih =>
    rw [popMax] at hp
    cases hpt : popMax t with
    | none =>
      rw [hpt] at hp
      simp only [Option.some.injEq, Prod.mk.injEq] at hp
      obtain ⟨hc, hrest⟩ := hp
      subst hc
      subst hrest
      have ht : t = [] := (popMax_none_iff t).mp hpt
      subst ht
      refine ⟨by simp, by simp, ?_, by simp, by simp⟩
      intro x hx
      rcases List.mem_cons.mp hx with hx | hx
      · exact Or.inl hx
      · exact absurd hx (List.not_mem_nil x)
    | some pr =>
      obtain ⟨m, rest0⟩ := pr
      rw [hpt] at hp
      dsimp only at hp
      obtain ⟨hm, hlen0, hcov0, hsub0, hle0⟩ := ih m rest0 hpt
      by_cases hle : m.time ≤ a.time
      · rw [if_pos hle] at hp
        simp only [Option.some.injEq, Prod.mk.injEq] at hp
        obtain ⟨hc, hrest⟩ := hp
        subst hc
        subst hrest
        refine ⟨by simp, by simp, ?_, ?_, ?_⟩
        · intro x hx
          exact List.mem_cons.mp hx
        · intro x hx
          exact List.mem_cons_of_mem a hx
        · intro x hx
          rcases hcov0 x hx with hx2 | hx2
          · subst hx2
            exact hle
          · exact le_trans (hle0 x hx2) hle
      · rw [if_neg hle] at hp
        simp only [Option.some.injEq, Prod.mk.injEq] at hp
        obtain ⟨hc, hrest⟩ := hp
        subst hc
        subst hrest
        refine ⟨List.mem_cons_of_mem a hm, by simp [← hlen0], ?_, ?_, ?_⟩
        · intro x hx
          rcases List.mem_cons.mp hx with hx2 | hx2
          · subst hx2
            exact Or.inr (List.mem_cons_self x rest0)
          · rcases hcov0 x hx2 with hx3 | hx3
            · exact Or.inl hx3
            · exact Or.inr (List.mem_cons_of_mem a hx3)
        · intro x hx
          rcases List.mem_cons.mp hx with hx2 | hx2
          · subst hx2
            exact List.mem_cons_self x t
          · exact List.mem_cons_of_mem a (hsub0 x hx2)
        · intro x hx
          rcases List.mem_cons.mp hx with hx2 | hx2
          · subst hx2
            exact le_of_lt (lt_of_not_le hle)
          · exact hle0 x hx2

theorem visit_measure_le (repo : Repo) (st : WalkState) (p : Nat) :
    walkMeasure repo (visitCommit repo st p) ≤ walkMeasure repo st := by
  unfold visitCommit
  by_cases hv : p ∈ st.visited
  · rw [if_pos hv]
  · rw [if_neg hv]
    cases hl : lookupCommit repo p with
    | none => exact le_refl _
    | some c =>
      unfold walkMeasure
      simp only [List.length_cons]
      have hpid : p ∈ repoIds repo := by
        unfold lookupCommit at hl
        have hcmem := List.mem_of_find?_eq_some hl
        have hcid : c.id = p := by
          have hfs := List.find?_some hl
          simpa using hfs
        unfold repoIds
        rw [List.mem_toFinset]
        exact List.mem_map.mpr ⟨c, hcmem, hcid⟩
      have hmem : p ∈ repoIds repo \ st.visited := Finset.mem_sdiff.mpr ⟨hpid, hv⟩
      have hcard : (repoIds repo \ insert p st.visited).card + 1 =
          (repoIds repo \ st.visited).card := by
        rw [Finset.sdiff_insert, Finset.card_erase_of_mem hmem]
        have hpos : 1 ≤ (repoIds repo \ st.visited).card :=
          Finset.card_pos.mpr ⟨p, hmem⟩
        omega
      omega

theorem foldl_visit_measure_le (repo : Repo) (ps : List Nat) :
    ∀ st : WalkState,
      walkMeasure repo (ps.foldl (visitCommit repo) st) ≤ walkMeasure repo st := by
  induction ps with
  | nil => intro st; exact le_refl _
  | cons p pt ih =>
    intro st
    rw [List.foldl_cons]
    exact le_trans (ih _) (visit_measure_le repo st p)

theorem step_measure_lt (repo : Repo) (st : WalkState) (c : GCommit)
    (rest : List GCommit) (hp : popMax st.heap = some (c, rest)) (ps : List Nat) :
    walkMeasure repo (ps.foldl (visitCommit repo)
      { heap := rest, visited := st.visited }) < walkMeasure repo st := by
  have h1 := foldl_visit_measure_le repo ps { heap := rest, visited := st.visited }
  have hlen := (popMax_cover st.heap c rest hp).2.1
  unfold walkMeasure at h1 ⊢
  dsimp only at h1 ⊢
  omega

theorem readStep_inr (repo : Repo) (limit filteredLimit : Nat)
    (filter stopper : Option (GCommit → Bool)) (st : WalkState)
    (count fcount : Nat) (out : List Nat) (st1 : WalkState) (c2 f2 : Nat)
    (o2 : List Nat)
    (h : readStep repo limit filteredLimit filter stopper st count fcount out =
      Sum.inr (st1, c2, f2, o2)) :
    ∃ c rest, popMax st.heap = some (c, rest) ∧
      st1 = c.parents.foldl (visitCommit repo)
        { heap := rest, visited := st.visited } ∧
      c2 = count + 1 ∧
      ((o2 = out ++ [c.id] ∧ f2 = fcount + 1) ∨ (o2 = out ∧ f2 = fcount)) ∧
      (filter = none → o2 = out ++ [c.id] ∧ f2 = fcount + 1) := by
  unfold readStep at h
  cases hp : popMax st.heap with
  | none => rw [hp] at h; exact absurd h (by simp)
  | some pr =>
    obtain ⟨c, rest⟩ := pr
    rw [hp] at h
    dsimp only at h
    refine ⟨c, rest, rfl, ?_⟩
    generalize hinc : (match filter with | some f => f c | none => true) = inc at h
    cases inc
    · have hfn : filter = none → False := by
        intro hf
        subst hf
        exact absurd hinc (by simp)
      simp only [Bool.false_eq_true, if_false, false_and] at h
      split at h
      · exact Sum.noConfusion h
      · split at h
        · exact Sum.noConfusion h
        · simp only [Sum.inr.injEq, Prod.mk.injEq] at h
          refine ⟨h.1.symm, h.2.1.symm, Or.inr ⟨h.2.2.2.symm, h.2.2.1.symm⟩, ?_⟩
          intro hf
          exact absurd hf hfn
    · simp only [eq_self_iff_true, true_and, if_true] at h
      split at h
      · exact Sum.noConfusion h
      · split at h
        · exact Sum.noConfusion h
        · split at h
          · exact Sum.noConfusion h
          · simp only [Sum.inr.injEq, Prod.mk.injEq] at h
            exact ⟨h.1.symm, h.2.1.symm, Or.inl ⟨h.2.2.2.symm, h.2.2.1.symm⟩,
              fun _ => ⟨h.2.2.2.symm, h.2.2.1.symm⟩⟩

theorem readStep_measure_lt (repo : Repo) (limit filteredLimit : Nat)
    (filter stopper : Option (GCommit → Bool)) (st : WalkState)
    (count fcount : Nat) (out : List Nat) (st1 : WalkState) (c2 f2 : Nat)
    (o2 : List Nat)
    (h : readStep repo limit filteredLimit filter stopper st count fcount out =
      Sum.inr (st1, c2, f2, o2)) :
    walkMeasure repo st1 < walkMeasure repo st := by
  obtain ⟨c, rest, hp, hst1, _⟩ := readStep_inr _ _ _ _ _ _ _ _ _ _ _ _ _ h
  rw [hst1]
  exact step_measure_lt repo st c rest hp c.parents

theorem readStep_c4_none (repo : Repo) (L : Nat) (st : WalkState)
    (count fc : Nat) (out : List Nat) (hp : popMax st.heap = none) :
    readStep repo L 0 none none st count fc out = Sum.inl (out, count, st) := by
  unfold readStep
  rw [hp]

theorem readStep_c4_break (repo : Repo) (L : Nat) (st : WalkState)
    (count fc : Nat) (out : List Nat) (c : GCommit) (rest : List GCommit)
    (hp : popMax st.heap = some (c, rest)) (hL : count + 1 = L) :
    readStep repo L 0 none none st count fc out =
      Sum.inl (out ++ [c.id], count + 1,
        c.parents.foldl (visitCommit repo) { heap := rest, visited := st.visited }) := by
  unfold readStep
  rw [hp]
  dsimp only
  rw [if_neg (by simp), if_pos hL]
  simp

theorem readStep_c4_cont (repo : Repo) (L : Nat) (st : WalkState)
    (count fc : Nat) (out : List Nat) (c : GCommit) (rest : List GCommit)
    (hp : popMax st.heap = some (c, rest)) (hL : count + 1 ≠ L) :
    readStep repo L 0 none none st count fc out =
      Sum.inr (c.parents.foldl (visitCommit repo) { heap := rest, visited := st.visited },
        count + 1, fc + 1, out ++ [c.id]) := by
  unfold readStep
  rw [hp]
  dsimp only
  rw [if_neg (by simp), if_neg hL, if_neg (by simp)]
  simp

theorem readLoop_trunc (repo : Repo) :
    ∀ (fuel : Nat) (st : WalkState) (count fc : Nat) (out : List Nat) (L n : Nat),
      (readLoopFuel repo 0 0 none none fuel st count fc out).2.1 = n →
      count < L → L ≤ n →
      (readLoopFuel repo L 0 none none fuel st count fc out).1.length =
        out.length + (L - count) ∧
      (readLoopFuel repo L 0 none none fuel st count fc out).2.1 = L := by
  intro fuel
  induction fuel with
  | zero =>
    intro st count fc out L n hn h1 h2
    simp only [readLoopFuel] at hn
    exact absurd h1 (by omega)
  | succ fuel ih =>
    intro st count fc out L n hn h1 h2
    cases hp : popMax st.heap with
    | none =>
      have hs0 := readStep_c4_none repo 0 st count fc out hp
      simp only [readLoopFuel, hs0] at hn
      exact absurd h1 (by omega)
    | some pr =>
      obtain ⟨c, rest⟩ := pr
      have hsu := readStep_c4_cont repo 0 st count fc out c rest hp (by omega)
      simp only [readLoopFuel, hsu] at hn
      by_cases hL : count + 1 = L
      · have hsl := readStep_c4_break repo L st count fc out c rest hp hL
        simp only [readLoopFuel, hsl]
        constructor
        · simp only [List.length_append, List.length_cons, List.length_nil]
          omega
        · exact hL
      · have hsl := readStep_c4_cont repo L st count fc out c rest hp hL
        simp only [readLoopFuel, hsl]
        have hrec := ih (c.parents.foldl (visitCommit repo)
            { heap := rest, visited := st.visited }) (count + 1) (fc + 1)
          (out ++ [c.id]) L n hn (by omega) h2
        constructor
        · rw [hrec.1]
          simp only [List.length_append, List.length_cons, List.length_nil]
          omega
        · exact hrec.2

/-- C4 (amended): for every repository and start commit, with `n` the
number of commits the unbounded walk delivers (no filter, no stopper,
`filtered_limit` unset), a single `read` with any limit `1 ≤ limit ≤ n`
appends exactly `limit` commit ids to the output vector and returns
`limit`.  (The claim's `limit = 0` case fails: the source treats 0 as
"no limit"; see the counterexample.) -/
theorem logwalker_read_limit_spec (repo : Repo) (c0 : GCommit) (limit : Nat)
    (h1 : 1 ≤ limit)
    (h2 : limit ≤ (logwalker_read repo 0 0 none none (walkInit c0)).2.1) :
    (logwalker_read repo limit 0 none none (walkInit c0)).1.length = limit ∧
    (logwalker_read repo limit 0 none none (walkInit c0)).2.1 = limit := by
  unfold logwalker_read at h2 ⊢
  have htr := readLoop_trunc repo (walkMeasure repo (walkInit c0)) (walkInit c0)
    0 0 [] limit
    ((readLoopFuel repo 0 0 none none (walkMeasure repo (walkInit c0))
      (walkInit c0) 0 0 []).2.1)
    rfl (by omega) h2
  constructor
  · rw [htr.1]
    simp
  · exact htr.2

def repoOne : Repo := [GCommit.mk 1 0 []]

/-- C4 counterexample: a repository with one commit; the walk reaches
`n = 1` commits and `limit = 0 ≤ n`, yet `read` appends 1 commit id and
returns 1, not 0 — `limit ≤ n` alone does not give "exactly limit". -/
theorem logwalker_limit_zero_counterexample :
    0 ≤ (logwalker_read repoOne 0 0 none none (walkInit (GCommit.mk 1 0 []))).2.1 ∧
    (logwalker_read repoOne 0 0 none none (walkInit (GCommit.mk 1 0 []))).2.1 = 1 ∧
    (logwalker_read repoOne 0 0 none none (walkInit (GCommit.mk 1 0 []))).1.length = 1 ∧
    (1 : Nat) ≠ 0 := by
  refine ⟨Nat.zero_le _, ?_, ?_, by decide⟩ <;> decide

def repoTwo : Repo := [GCommit.mk 1 5 [2], GCommit.mk 2 3 []]

theorem logwalker_read_limit_spec_witness :
    1 ≤ 1 ∧
    1 ≤ (logwalker_read repoTwo 0 0 none none (walkInit (GCommit.mk 1 5 [2]))).2.1 ∧
    ((logwalker_read repoTwo 1 0 none none (walkInit (GCommit.mk 1 5 [2]))).1.length = 1 ∧
      (logwalker_read repoTwo 1 0 none none (walkInit (GCommit.mk 1 5 [2]))).2.1 = 1) :=
  ⟨by decide, by decide,
    logwalker_read_limit_spec repoTwo (GCommit.mk 1 5 [2]) 1 (by decide) (by decide)⟩

/-- The committer time the ids in `out` stand for. -/
def timeOfCommit (repo : Repo) (i : Nat) : Int :=
  ((lookupCommit repo i).map (fun c => c.time)).getD 0

/-- Every commit's parents have committer time at most the commit's own
(no clock skew across edges). -/
def parentTimesMono (repo : Repo) : Bool :=
  repo.all (fun c => c.parents.all (fun p =>
    match lookupCommit repo p with
    | some pc => decide (pc.time ≤ c.time)
    | none => true))

/-- Every heap entry is the repository's commit for its id. -/
def heapConsistent (repo : Repo) (heap : List GCommit) : Prop :=
  ∀ c ∈ heap, lookupCommit repo c.id = some c

theorem lookupCommit_self (repo : Repo) (i : Nat) (c : GCommit)
    (h : lookupCommit repo i = some c) :
    c.id = i ∧ c ∈ repo ∧ lookupCommit repo c.id = some c := by
  have hid : c.id = i := by
    have hfs := List.find?_some h
    simpa using hfs
  have hmem : c ∈ repo := List.mem_of_find?_eq_some h
  exact ⟨hid, hmem, hid ▸ h⟩

theorem parentTimesMono_spec (repo : Repo) (h : parentTimesMono repo = true) :
    ∀ c ∈ repo, ∀ p ∈ c.parents, ∀ pc : GCommit,
      lookupCommit repo p = some pc → pc.time ≤ c.time := by
  intro c hc p hp pc hl
  unfold parentTimesMono at h
  rw [List.all_eq_true] at h
  have h2 := h c hc
  rw [List.all_eq_true] at h2
  have h3 := h2 p hp
  rw [hl] at h3
  dsimp only at h3
  exact of_decide_eq_true h3

theorem foldl_visit_heap (repo : Repo) (ps : List Nat) :
    ∀ (st : WalkState) (x : GCommit),
      x ∈ (ps.foldl (visitCommit repo) st).heap →
      x ∈ st.heap ∨ ∃ p ∈ ps, lookupCommit repo p = some x := by
  induction ps with
  | nil =>
    intro st x hx
    exact Or.inl hx
  | cons p pt ih =>
    intro st x hx
    rw [List.foldl_cons] at hx
    rcases ih (visitCommit repo st p) x hx with hx2 | hx2
    · unfold visitCommit at hx2
      by_cases hv : p ∈ st.visited
      · rw [if_pos hv] at hx2
        exact Or.inl hx2
      · rw [if_neg hv] at hx2
        cases hl : lookupCommit repo p with
        | none => rw [hl] at hx2; exact Or.inl hx2
        | some cp =>
          rw [hl] at hx2
          dsimp only at hx2
          rcases List.mem_cons.mp hx2 with hx3 | hx3
          · subst hx3
            exact Or.inr ⟨p, List.mem_cons_self p pt, hl⟩
          · exact Or.inl hx3
    · obtain ⟨q, hq, hql⟩ := hx2
      exact Or.inr ⟨q, List.mem_cons_of_mem p hq, hql⟩

theorem readStep_inl (repo : Repo) (limit filteredLimit : Nat)
    (filter stopper : Option (GCommit → Bool)) (st : WalkState)
    (count fcount : Nat) (out : List Nat) (r : List Nat × Nat × WalkState)
    (h : readStep repo limit filteredLimit filter stopper st count fcount out =
      Sum.inl r) :
    (r.1 = out ∧ r.2.2 = st) ∨
    ∃ c rest, popMax st.heap = some (c, rest) ∧
      r.2.2 = c.parents.foldl (visitCommit repo)
        { heap := rest, visited := st.visited } ∧
      (r.1 = out ++ [c.id] ∨ r.1 = out) := by
  unfold readStep at h
  cases hp : popMax st.heap with
  | none =>
    rw [hp] at h
    simp only [Sum.inl.injEq] at h
    subst h
    exact Or.inl ⟨rfl, rfl⟩
  | some pr =>
    obtain ⟨c, rest⟩ := pr
    rw [hp] at h
    dsimp only at h
    refine Or.inr ⟨c, rest, rfl, ?_⟩
    generalize hinc : (match filter with | some f => f c | none => true) = inc at h
    cases inc
    · simp only [Bool.false_eq_true, if_false, false_and] at h
      split at h
      · simp only [Sum.inl.injEq] at h
        subst h
        exact ⟨rfl, Or.inr rfl⟩
      · split at h
        · simp only [Sum.inl.injEq] at h
          subst h
          exact ⟨rfl, Or.inr rfl⟩
        · exact Sum.noConfusion h
    · simp only [eq_self_iff_true, true_and, if_true] at h
      split at h
      · simp only [Sum.inl.injEq] at h
        subst h
        exact ⟨rfl, Or.inl rfl⟩
      · split at h
        · simp only [Sum.inl.injEq] at h
          subst h
          exact ⟨rfl, Or.inl rfl⟩
        · split at h
          · simp only [Sum.inl.injEq] at h
            subst h
            exact ⟨rfl, Or.inl rfl⟩
          · exact Sum.noConfusion h

/-- Delivered-before relation on commit ids: the earlier one has the
larger (or equal) committer time. -/
def timeGE (repo : Repo) (a b : Nat) : Prop :=
  timeOfCommit repo b ≤ timeOfCommit repo a

instance (repo : Repo) (a b : Nat) : Decidable (timeGE repo a b) :=
  inferInstanceAs (Decidable (timeOfCommit repo b ≤ timeOfCommit repo a))

theorem step_invariants (repo : Repo) (hmono : parentTimesMono repo = true)
    (st : WalkState) (c : GCommit) (rest : List GCommit)
    (hp : popMax st.heap = some (c, rest))
    (hcons : heapConsistent repo st.heap)
    (out : List Nat)
    (hbound : ∀ x ∈ st.heap, ∀ lastId ∈ out.getLast?,
      x.time ≤ timeOfCommit repo lastId)
    (hchain : List.Chain' (timeGE repo) out) :
    heapConsistent repo (c.parents.foldl (visitCommit repo)
      { heap := rest, visited := st.visited }).heap ∧
    (∀ x ∈ (c.parents.foldl (visitCommit repo)
      { heap := rest, visited := st.visited }).heap, x.time ≤ c.time) ∧
    timeOfCommit repo c.id = c.time ∧
    List.Chain' (timeGE repo) (out ++ [c.id]) ∧
    (∀ x ∈ (c.parents.foldl (visitCommit repo)
      { heap := rest, visited := st.visited }).heap,
      ∀ lastId ∈ (out ++ [c.id]).getLast?, x.time ≤ timeOfCommit repo lastId) ∧
    (∀ x ∈ (c.parents.foldl (visitCommit repo)
      { heap := rest, visited := st.visited }).heap,
      ∀ lastId ∈ out.getLast?, x.time ≤ timeOfCommit repo lastId) := by
  obtain ⟨hcmem, hlen, hcov, hsub, hle⟩ := popMax_cover st.heap c rest hp
  have hcl : lookupCommit repo c.id = some c := hcons c hcmem
  have hcrepo : c ∈ repo := (lookupCommit_self repo c.id c hcl).2.1
  have htc : timeOfCommit repo c.id = c.time := by
    unfold timeOfCommit
    rw [hcl]
    rfl
  have hmem1 : ∀ x ∈ (c.parents.foldl (visitCommit repo)
      { heap := rest, visited := st.visited }).heap,
      x ∈ rest ∨ ∃ p ∈ c.parents, lookupCommit repo p = some x := by
    intro x hx
    exact foldl_visit_heap repo c.parents { heap := rest, visited := st.visited } x hx
  have htimele : ∀ x ∈ (c.parents.foldl (visitCommit repo)
      { heap := rest, visited := st.visited }).heap, x.time ≤ c.time := by
    intro x hx
    rcases hmem1 x hx with hx2 | ⟨p, hpm, hpl⟩
    · exact hle x hx2
    · exact parentTimesMono_spec repo hmono c hcrepo p hpm x hpl
  have hchain2 : List.Chain' (timeGE repo) (out ++ [c.id]) := by
    rw [List.chain'_append]
    refine ⟨hchain, List.chain'_singleton c.id, ?_⟩
    intro a ha b hb
    rw [List.head?_cons, Option.mem_def, Option.some.injEq] at hb
    subst hb
    unfold timeGE
    rw [htc]
    exact hbound c hcmem a ha
  refine ⟨?_, htimele, htc, hchain2, ?_, ?_⟩
  · intro x hx
    rcases hmem1 x hx with hx2 | ⟨p, _, hpl⟩
    · exact hcons x (hsub x hx2)
    · exact (lookupCommit_self repo p x hpl).2.2
  · intro x hx lastId hlast
    rw [List.getLast?_concat, Option.mem_def, Option.some.injEq] at hlast
    subst hlast
    rw [htc]
    exact htimele x hx
  · intro x hx lastId hlast
    exact le_trans (htimele x hx) (hbound c hcmem lastId hlast)

theorem readLoop_chain (repo : Repo) (hmono : parentTimesMono repo = true)
    (limit filteredLimit : Nat) (filter stopper : Option (GCommit → Bool)) :
    ∀ (fuel : Nat) (st : WalkState) (count fc : Nat) (out : List Nat),
      heapConsistent repo st.heap →
      (∀ x ∈ st.heap, ∀ lastId ∈ out.getLast?,
        x.time ≤ timeOfCommit repo lastId) →
      List.Chain' (timeGE repo) out →
      List.Chain' (timeGE repo)
        (readLoopFuel repo limit filteredLimit filter stopper fuel st count fc out).1 := by
  intro fuel
  induction fuel with
  | zero =>
    intro st count fc out hcons hbound hchain
    simp only [readLoopFuel]
    exact hchain
  | succ fuel ih =>
    intro st count fc out hcons hbound hchain
    simp only [readLoopFuel]
    cases hstep : readStep repo limit filteredLimit filter stopper st count fc out with
    | inl r =>
      rcases readStep_inl repo limit filteredLimit filter stopper st count fc out r
          hstep with ⟨ho, _⟩ | ⟨c, rest, hp, _, hor⟩
      · rw [ho]
        exact hchain
      · rcases hor with ho | ho
        · rw [ho]
          exact (step_invariants repo hmono st c rest hp hcons out hbound
            hchain).2.2.2.1
        · rw [ho]
          exact hchain
    | inr tup =>
      obtain ⟨st1, c2, f2, o2⟩ := tup
      obtain ⟨c, rest, hp, hst1, hc2, hoor, _⟩ :=
        readStep_inr repo limit filteredLimit filter stopper st count fc out
          st1 c2 f2 o2 hstep
      have hsi := step_invariants repo hmono st c rest hp hcons out hbound hchain
      rcases hoor with ⟨ho, hf⟩ | ⟨ho, hf⟩
      · subst ho
        subst hst1
        exact ih _ c2 f2 _ hsi.1 hsi.2.2.2.2.1 hsi.2.2.2.1
      · subst ho
        subst hst1
        exact ih _ c2 f2 _ hsi.1 hsi.2.2.2.2.2 hchain

/-- C5 (amended): when every parent's committer time is at most its
child's, the sequence of commit ids `LogWalker::read` delivers is
non-increasing by committer time — for any limit, filtered limit, filter
and stopper.  (For arbitrary commit graphs the claim fails: a parent
with a larger timestamp than its child is delivered after it; see the
counterexample.) -/
theorem logwalker_read_time_ordered (repo : Repo) (c0 : GCommit)
    (hc0 : lookupCommit repo c0.id = some c0)
    (hmono : parentTimesMono repo = true)
    (limit filteredLimit : Nat) (filter stopper : Option (GCommit → Bool)) :
    List.Chain' (timeGE repo)
      (logwalker_read repo limit filteredLimit filter stopper (walkInit c0)).1 := by
  unfold logwalker_read
  apply readLoop_chain repo hmono
  · intro x hx
    rcases List.mem_singleton.mp hx with hx2
    subst hx2
    exact hc0
  · intro x _ lastId hlast
    exact absurd hlast (by simp)
  · exact List.chain'_nil

def repoSkew : Repo := [GCommit.mk 1 0 [2], GCommit.mk 2 1 []]

/-- C5 counterexample: a two-commit graph whose parent has a LARGER
committer time than its child (clock skew).  The walk delivers
`[1, 2]` with times `[0, 1]` — an increasing sequence — so the delivery
order is not non-increasing by committer time for every commit graph. -/
theorem logwalker_time_order_counterexample :
    (logwalker_read repoSkew 0 0 none none (walkInit (GCommit.mk 1 0 [2]))).1 =
      [1, 2] ∧
    ¬ List.Chain' (timeGE repoSkew)
      (logwalker_read repoSkew 0 0 none none (walkInit (GCommit.mk 1 0 [2]))).1 := by
  have hout : (logwalker_read repoSkew 0 0 none none
      (walkInit (GCommit.mk 1 0 [2]))).1 = [1, 2] := by decide
  refine ⟨hout, ?_⟩
  rw [hout]
  simp only [List.chain'_cons, List.chain'_singleton, and_true]
  decide

theorem logwalker_read_time_ordered_witness :
    lookupCommit repoTwo (GCommit.mk 1 5 [2]).id = some (GCommit.mk 1 5 [2]) ∧
    parentTimesMono repoTwo = true ∧
    List.Chain' (timeGE repoTwo)
      (logwalker_read repoTwo 0 0 none none (walkInit (GCommit.mk 1 5 [2]))).1 :=
  ⟨by decide, by decide,
    logwalker_read_time_ordered repoTwo (GCommit.mk 1 5 [2]) (by decide) (by decide)
      0 0 none none⟩

/-! ## Blame viewer: substring search (src/src/components/blame_file.rs)

The blamed file is the list of its line contents.  `search_only` mirrors
`BlameFileComponent::search_only`: starting from `search.start` (bumped
one column right when it equals `search.found`), it searches the start
line from the start offset, then every later line from column 0, then
wraps around over lines `0..=start.line`.  `search_next` stores a hit in
both `search.start` and `search.found` (the table-selection move is not
part of the searched positions and is omitted).  Rust byte offsets are
modelled as character offsets (`List Char`). -/

abbrev BlameFile := List (List Char)

structure LinePos where
  line : Nat
  offset : Nat
deriving DecidableEq

structure BlameSearchState where
  str : Option (List Char)
  start : LinePos
  found : Option LinePos
deriving DecidableEq

/-- `str::find` for a substring: the least offset where `needle` is a
prefix of the rest of `s`. -/
def findSub : List Char → List Char → Option Nat
  | s, needle =>
    if needle.isPrefixOf s then some 0
    else
      match s with
      | [] => none
      | _ :: t => (findSub t needle).map (fun o => o + 1)

/-- The `for i in lo..hi { b.lines[i].find(substr) }` loops: first line
in `[lo, hi)` containing the needle, with the least offset in it. -/
def scanLines (b : BlameFile) (needle : List Char) (lo hi : Nat) : Option LinePos :=
  (List.range' lo (hi - lo)).findSome? (fun i =>
    (findSub (b.getD i []) needle).map (fun o => LinePos.mk i o))

/-- `BlameFileComponent::search_only`. -/
def blame_search_only (b : BlameFile) (st : BlameSearchState) : Option LinePos :=
  let substr := st.str.getD []
  let from1 := match st.found with
    | some f => if st.start = f then LinePos.mk st.start.line (st.start.offset + 1)
       else st.start
    | none => st.start
  match findSub ((b.getD from1.line []).drop from1.offset) substr with
  | some o => some (LinePos.mk from1.line (o + from1.offset))
  | none =>
    match scanLines b substr (from1.line + 1) b.length with
    | some r => some r
    | none => scanLines b substr 0 (from1.line + 1)

/-- `BlameFileComponent::search_next` (the selection move is omitted). -/
def blame_search_next (b : BlameFile) (st : BlameSearchState) : BlameSearchState :=
  match st.str with
  | some s =>
    if s = [] then st
    else
      match blame_search_only b st with
      | some r => { st with start := r, found := some r }
      | none => st
  | none => st

/-- All offsets at which `needle` occurs in a line, in increasing order. -/
def lineOccs : List Char → List Char → List Nat
  | [], _ => []
  | c :: t, needle =>
    (if needle.isPrefixOf (c :: t) then [0] else []) ++
      (lineOccs t needle).map (fun o => o + 1)

/-- All positions at which `needle` occurs in the lines of `b`, first
line indexed `idx`, in lexicographic (line, offset) order. -/
def occsFrom : BlameFile → List Char → Nat → List LinePos
  | [], _, _ => []
  | l :: rest, needle, idx =>
    (lineOccs l needle).map (fun o => LinePos.mk idx o) ++
      occsFrom rest needle (idx + 1)

/-- All occurrences of `needle` in the blamed file, in position order. -/
def blameOccs (b : BlameFile) (needle : List Char) : List LinePos :=
  occsFrom b needle 0

/-- Strict lexicographic order on positions. -/
def lexLt (p q : LinePos) : Prop :=
  p.line < q.line ∨ (p.line = q.line ∧ p.offset < q.offset)

instance (p q : LinePos) : Decidable (lexLt p q) :=
  inferInstanceAs (Decidable (_ ∨ _))

theorem isPrefixOf_nil_false (needle : List Char) (hne : needle ≠ []) :
    needle.isPrefixOf [] = false := by
  cases needle with
  | nil => exact absurd rfl hne
  | cons c t => rfl

theorem findSub_eq_head (s needle : List Char) (hne : needle ≠ []) :
    findSub s needle = (lineOccs s needle).head? := by
  induction s with
  | nil =>
    rw [findSub, isPrefixOf_nil_false needle hne]
    rfl
  | cons c t ih =>
    rw [findSub, lineOccs]
    by_cases hpfx : needle.isPrefixOf (c :: t) = true
    · rw [if_pos hpfx, if_pos hpfx]
      rfl
    · rw [if_neg hpfx, if_neg (by simpa using hpfx)]
      rw [List.nil_append, ih, List.head?_map]

theorem lineOccs_mem (needle : List Char) (hne : needle ≠ []) :
    ∀ (s : List Char) (o : Nat),
      o ∈ lineOccs s needle ↔ needle.isPrefixOf (s.drop o) = true := by
  intro s
  induction s with
  | nil =>
    intro o
    rw [lineOccs]
    simp only [List.not_mem_nil, false_iff, List.drop_nil]
    rw [isPrefixOf_nil_false needle hne]
    simp
  | cons c t ih =>
    intro o
    rw [lineOccs]
    cases o with
    | zero =>
      simp only [List.mem_append, List.mem_map, List.drop_zero]
      constructor
      · rintro (h0 | ⟨o2, _, hcon⟩)
        · by_cases hpfx : needle.isPrefixOf (c :: t) = true
          · exact hpfx
          · rw [if_neg hpfx] at h0
            exact absurd h0 (List.not_mem_nil 0)
        · exact absurd hcon (by omega)
      · intro hpfx
        left
        rw [if_pos hpfx]
        exact List.mem_singleton.mpr rfl
    | succ o2 =>
      simp only [List.mem_append, List.mem_map, List.drop_succ_cons]
      constructor
      · rintro (h0 | ⟨o3, ho3, hcon⟩)
        · by_cases hpfx : needle.isPrefixOf (c :: t) = true
          · rw [if_pos hpfx] at h0
            rw [List.mem_singleton] at h0
            exact absurd h0 (by omega)
          · rw [if_neg hpfx] at h0
            exact absurd h0 (List.not_mem_nil _)
        · have ho : o3 = o2 := by omega
          subst ho
          exact (ih o3).mp ho3
      · intro hpfx
        right
        exact ⟨o2, (ih o2).mpr hpfx, rfl⟩

theorem lineOccs_sorted (needle : List Char) (s : List Char) :
    List.Pairwise (fun a b => a < b) (lineOccs s needle) := by
  induction s with
  | nil => exact List.Pairwise.nil
  | cons c t ih =>
    rw [lineOccs]
    rw [List.pairwise_append]
    refine ⟨?_, ?_, ?_⟩
    · by_cases hpfx : needle.isPrefixOf (c :: t) = true
      · rw [if_pos hpfx]
        simp
      · rw [if_neg hpfx]
        exact List.Pairwise.nil
    · rw [List.pairwise_map]
      exact ih.imp (by omega)
    · intro a ha b hb
      obtain ⟨o2, _, hb2⟩ := List.mem_map.mp hb
      by_cases hpfx : needle.isPrefixOf (c :: t) = true
      · rw [if_pos hpfx] at ha
        rw [List.mem_singleton] at ha
        omega
      · rw [if_neg hpfx] at ha
        exact absurd ha (List.not_mem_nil a)

theorem lineOccs_drop (needle : List Char) (_hne : needle ≠ []) :
    ∀ (k : Nat) (s : List Char),
      lineOccs (s.drop k) needle =
        ((lineOccs s needle).filter (fun o => decide (k ≤ o))).map
          (fun o => o - k) := by
  intro k
  induction k with
  | zero =>
    intro s
    have hfil : (lineOccs s needle).filter (fun o => decide (0 ≤ o)) =
        lineOccs s needle := by
      apply List.filter_eq_self.mpr
      intro o _
      simp
    rw [List.drop_zero, hfil]
    have hmap : (lineOccs s needle).map (fun o => o - 0) =
        (lineOccs s needle).map id := by
      apply List.map_congr_left
      intro o _
      simp
    rw [hmap, List.map_id]
  | succ k ih =>
    intro s
    cases s with
    | nil =>
      simp [lineOccs]
    | cons c t =>
      rw [List.drop_succ_cons, ih t, lineOccs]
      by_cases hpfx : needle.isPrefixOf (c :: t) = true
      · rw [if_pos hpfx]
        rw [List.filter_append]
        have h0 : ([0] : List Nat).filter (fun o => decide (k + 1 ≤ o)) = [] := by
          simp
        rw [h0, List.nil_append, List.filter_map, List.map_map]
        have hpred : ((fun o => decide (k + 1 ≤ o)) ∘ (fun o => o + 1)) =
            (fun o => decide (k ≤ o)) := by
          funext o
          simp only [Function.comp_apply, decide_eq_decide]
          omega
        rw [hpred]
        apply List.map_congr_left
        intro o ho
        simp only [Function.comp_apply]
        omega
      · rw [if_neg hpfx, List.nil_append]
        rw [List.filter_map, List.map_map]
        have hpred : ((fun o => decide (k + 1 ≤ o)) ∘ (fun o => o + 1)) =
            (fun o => decide (k ≤ o)) := by
          funext o
          simp only [Function.comp_apply, decide_eq_decide]
          omega
        rw [hpred]
        apply List.map_congr_left
        intro o ho
        simp only [Function.comp_apply]
        omega

theorem occsFrom_line_bounds (needle : List Char) :
    ∀ (b : BlameFile) (idx : Nat) (p : LinePos), p ∈ occsFrom b needle idx →
      idx ≤ p.line ∧ p.line < idx + b.length := by
  intro b
  induction b with
  | nil =>
    intro idx p hp
    exact absurd hp (List.not_mem_nil p)
  | cons l rest ih =>
    intro idx p hp
    rw [occsFrom] at hp
    rcases List.mem_append.mp hp with hp2 | hp2
    · obtain ⟨o, _, hpo⟩ := List.mem_map.mp hp2
      subst hpo
      simp only [List.length_cons]
      omega
    · have := ih (idx + 1) p hp2
      simp only [List.length_cons]
      omega

theorem occsFrom_sorted (needle : List Char) :
    ∀ (b : BlameFile) (idx : Nat),
      List.Pairwise lexLt (occsFrom b needle idx) := by
  intro b
  induction b with
  | nil => intro idx; exact List.Pairwise.nil
  | cons l rest ih =>
    intro idx
    rw [occsFrom, List.pairwise_append]
    refine ⟨?_, ih (idx + 1), ?_⟩
    · rw [List.pairwise_map]
      exact (lineOccs_sorted needle l).imp (fun h => Or.inr ⟨rfl, h⟩)
    · intro p hp q hq
      obtain ⟨o, _, hpo⟩ := List.mem_map.mp hp
      subst hpo
      have hqb := occsFrom_line_bounds needle rest (idx + 1) q hq
      exact Or.inl (show idx < q.line by omega)

theorem occsFrom_append (needle : List Char) :
    ∀ (b1 b2 : BlameFile) (idx : Nat),
      occsFrom (b1 ++ b2) needle idx =
        occsFrom b1 needle idx ++ occsFrom b2 needle (idx + b1.length) := by
  intro b1
  induction b1 with
  | nil =>
    intro b2 idx
    simp [occsFrom]
  | cons l rest ih =>
    intro b2 idx
    rw [List.cons_append, occsFrom, occsFrom, ih b2 (idx + 1), List.append_assoc]
    simp only [List.length_cons]
    have : idx + 1 + rest.length = idx + (rest.length + 1) := by omega
    rw [this]

theorem scanLines_aux (b : BlameFile) (needle : List Char) (hne : needle ≠ []) :
    ∀ (n lo : Nat),
      (List.range' lo n).findSome? (fun i =>
        (findSub (b.getD i []) needle).map (fun o => LinePos.mk i o)) =
      (occsFrom ((b.drop lo).take n) needle lo).head? := by
  intro n
  induction n with
  | zero =>
    intro lo
    simp [occsFrom]
  | succ n ih =>
    intro lo
    rw [List.range'_succ, List.findSome?_cons]
    cases hbl : b.drop lo with
    | nil =>
      have hlen : b.length ≤ lo := by
        have := congrArg List.length hbl
        simp only [List.length_drop, List.length_nil] at this
        omega
      have hget : b.getD lo [] = [] := by
        rw [List.getD_eq_getElem?_getD]
        rw [List.getElem?_eq_none (by omega)]
        rfl
      rw [hget, findSub, isPrefixOf_nil_false needle hne]
      simp only [Bool.false_eq_true, if_false]
      have hbl2 : b.drop (lo + 1) = [] := by
        apply List.drop_eq_nil_of_le
        omega
      simp only [Option.map_none']
      rw [ih (lo + 1), hbl2]
      simp [occsFrom]
    | cons l restl =>
      have hget : b.getD lo [] = l := by
        rw [List.getD_eq_getElem?_getD]
        have hh : (b.drop lo).head? = some l := by rw [hbl]; rfl
        rw [List.head?_drop] at hh
        rw [hh]
        rfl
      have hrest : b.drop (lo + 1) = restl := by
        have : (b.drop lo).drop 1 = b.drop (lo + 1) := by
          rw [List.drop_drop]
        rw [← this, hbl]
        rfl
      rw [hget, findSub_eq_head _ _ hne]
      rw [List.take_succ_cons, occsFrom]
      cases hlo : (lineOccs l needle).head? with
      | none =>
        have hemp : lineOccs l needle = [] := List.head?_eq_none_iff.mp hlo
        rw [hemp]
        simp only [Option.map_none', List.map_nil, List.nil_append]
        rw [ih (lo + 1), hrest]
      | some o =>
        have hne2 : lineOccs l needle ≠ [] := by
          intro he
          rw [he] at hlo
          exact absurd hlo (by simp)
        simp only [Option.map_some']
        rw [List.head?_append, List.head?_map, hlo]
        rfl

theorem findSub_drop_shift (line needle : List Char) (hne : needle ≠ [])
    (k : Nat) :
    (findSub (line.drop k) needle).map (fun o => o + k) =
      ((lineOccs line needle).filter (fun o => decide (k ≤ o))).head? := by
  rw [findSub_eq_head _ _ hne, lineOccs_drop needle hne k line]
  cases hf : ((lineOccs line needle).filter (fun o => decide (k ≤ o))) with
  | nil => simp
  | cons o t =>
    have hmem : o ∈ (lineOccs line needle).filter (fun o => decide (k ≤ o)) := by
      rw [hf]
      exact List.mem_cons_self o t
    have hko : k ≤ o := by
      have := (List.mem_filter.mp hmem).2
      simpa using this
    simp only [List.map_cons, List.head?_cons, Option.map_some']
    congr 1
    omega

/-- The cyclic successor in the ordered occurrence list: the first
occurrence after `p`, or the first occurrence overall once past the
last. -/
def succAfter (l : List LinePos) (p : LinePos) : Option LinePos :=
  match (l.filter (fun q => decide (lexLt p q))).head? with
  | some q => some q
  | none => l.head?

theorem blame_search_only_at_occ (b : BlameFile) (needle : List Char)
    (hne : needle ≠ []) (p : LinePos) (hline : p.line < b.length) :
    blame_search_only b { str := some needle, start := p, found := some p } =
      succAfter (blameOccs b needle) p := by
  have hk : p.line + 1 ≤ b.length := by omega
  have htklen : (b.take (p.line + 1)).length = p.line + 1 := by
    rw [List.length_take]
    omega
  have htklen0 : (b.take p.line).length = p.line := by
    rw [List.length_take]
    omega
  have hbp : b[p.line]? = some (b.getD p.line []) := by
    cases hx : b[p.line]? with
    | none =>
      rw [List.getElem?_eq_none_iff] at hx
      omega
    | some y =>
      rw [List.getD_eq_getElem?_getD, hx]
      rfl
  have hsplit1 : blameOccs b needle =
      occsFrom (b.take (p.line + 1)) needle 0 ++
        occsFrom (b.drop (p.line + 1)) needle (p.line + 1) := by
    unfold blameOccs
    conv_lhs => rw [← List.take_append_drop (p.line + 1) b]
    rw [occsFrom_append, htklen]
    rw [Nat.zero_add]
  have hsplit2 : occsFrom (b.take (p.line + 1)) needle 0 =
      occsFrom (b.take p.line) needle 0 ++
        (lineOccs (b.getD p.line []) needle).map (fun o => LinePos.mk p.line o) := by
    rw [List.take_succ, hbp]
    rw [occsFrom_append, htklen0, Nat.zero_add]
    rw [Option.toList_some, occsFrom, occsFrom, List.append_nil]
  have hfA : (occsFrom (b.take p.line) needle 0).filter
      (fun q => decide (lexLt p q)) = [] := by
    rw [List.filter_eq_nil_iff]
    intro q hq
    have hb := occsFrom_line_bounds needle (b.take p.line) 0 q hq
    rw [htklen0] at hb
    simp only [decide_eq_true_eq]
    unfold lexLt
    omega
  have hfB : ((lineOccs (b.getD p.line []) needle).map
        (fun o => LinePos.mk p.line o)).filter (fun q => decide (lexLt p q)) =
      ((lineOccs (b.getD p.line []) needle).filter
        (fun o => decide (p.offset + 1 ≤ o))).map (fun o => LinePos.mk p.line o) := by
    rw [List.filter_map]
    congr 1
    apply List.filter_congr
    intro o _
    simp only [Function.comp_apply, decide_eq_decide]
    unfold lexLt
    dsimp only
    omega
  have hfC : (occsFrom (b.drop (p.line + 1)) needle (p.line + 1)).filter
      (fun q => decide (lexLt p q)) =
      occsFrom (b.drop (p.line + 1)) needle (p.line + 1) := by
    rw [List.filter_eq_self]
    intro q hq
    have hb := occsFrom_line_bounds needle (b.drop (p.line + 1)) (p.line + 1) q hq
    simp only [decide_eq_true_eq]
    unfold lexLt
    omega
  have hFfull : (blameOccs b needle).filter (fun q => decide (lexLt p q)) =
      ((lineOccs (b.getD p.line []) needle).filter
        (fun o => decide (p.offset + 1 ≤ o))).map (fun o => LinePos.mk p.line o) ++
      occsFrom (b.drop (p.line + 1)) needle (p.line + 1) := by
    rw [hsplit1, hsplit2, List.filter_append, List.filter_append]
    rw [hfA, hfB, hfC, List.nil_append]
  show blame_search_only b { str := some needle, start := p, found := some p } =
    succAfter (blameOccs b needle) p
  unfold blame_search_only succAfter
  dsimp only
  rw [if_pos rfl]
  simp only [Option.getD_some]
  rw [hFfull]
  have hstep1 := findSub_drop_shift (b.getD p.line []) needle hne (p.offset + 1)
  cases hf1 : ((lineOccs (b.getD p.line []) needle).filter
      (fun o => decide (p.offset + 1 ≤ o))) with
  | cons o t =>
    rw [hf1] at hstep1
    simp only [List.head?_cons] at hstep1
    cases hfs : findSub ((b.getD p.line []).drop (p.offset + 1)) needle with
    | none => rw [hfs] at hstep1; exact absurd hstep1 (by simp)
    | some o2 =>
      rw [hfs] at hstep1
      simp only [Option.map_some', Option.some.injEq] at hstep1
      dsimp only
      simp only [List.map_cons, List.cons_append, List.head?_cons]
      rw [hstep1]
  | nil =>
    rw [hf1] at hstep1
    simp only [List.head?_nil] at hstep1
    have hfs : findSub ((b.getD p.line []).drop (p.offset + 1)) needle = none := by
      cases hfs2 : findSub ((b.getD p.line []).drop (p.offset + 1)) needle with
      | none => rfl
      | some o2 => rw [hfs2] at hstep1; exact absurd hstep1 (by simp)
    rw [hfs]
    simp only [List.map_nil, List.nil_append]
    have hscan2 : scanLines b needle (p.line + 1) b.length =
        (occsFrom (b.drop (p.line + 1)) needle (p.line + 1)).head? := by
      unfold scanLines
      rw [scanLines_aux b needle hne (b.length - (p.line + 1)) (p.line + 1)]
      rw [List.take_of_length_le (by rw [List.length_drop])]
    rw [hscan2]
    cases hc0 : (occsFrom (b.drop (p.line + 1)) needle (p.line + 1)).head? with
    | some r => rfl
    | none =>
      have hc0e : occsFrom (b.drop (p.line + 1)) needle (p.line + 1) = [] :=
        List.head?_eq_none_iff.mp hc0
      have hscan3 : scanLines b needle 0 (p.line + 1) =
          (occsFrom (b.take (p.line + 1)) needle 0).head? := by
        unfold scanLines
        rw [Nat.sub_zero]
        have hdz : (b.drop 0).take (p.line + 1) = b.take (p.line + 1) := by
          rw [List.drop_zero]
        rw [scanLines_aux b needle hne (p.line + 1) 0, hdz]
      rw [hscan3]
      rw [hsplit1, hc0e, List.append_nil]

theorem blame_search_only_init (b : BlameFile) (needle : List Char)
    (hne : needle ≠ []) :
    blame_search_only b { str := some needle, start := LinePos.mk 0 0, found := none } =
      (blameOccs b needle).head? := by
  unfold blame_search_only
  dsimp only
  simp only [Option.getD_some]
  rw [List.drop_zero, findSub_eq_head _ _ hne]
  cases b with
  | nil =>
    simp [scanLines, blameOccs, occsFrom, findSub, lineOccs,
      isPrefixOf_nil_false needle hne, List.range']
  | cons l0 rest =>
    have hget : (l0 :: rest).getD 0 [] = l0 := rfl
    rw [hget]
    rw [blameOccs, occsFrom]
    cases hl0 : (lineOccs l0 needle).head? with
    | some o =>
      dsimp only
      rw [List.head?_append, List.head?_map, hl0]
      simp
    | none =>
      have hl0e : lineOccs l0 needle = [] := List.head?_eq_none_iff.mp hl0
      dsimp only
      rw [hl0e]
      simp only [List.map_nil, List.nil_append]
      have hscan2 : scanLines (l0 :: rest) needle 1 (l0 :: rest).length =
          (occsFrom rest needle 1).head? := by
        unfold scanLines
        rw [scanLines_aux _ _ hne ((l0 :: rest).length - 1) 1]
        have hd1 : (l0 :: rest).drop 1 = rest := rfl
        rw [hd1]
        have hlen1 : (l0 :: rest).length - 1 = rest.length := by
          simp only [List.length_cons]
          omega
        rw [hlen1, List.take_length]
      rw [hscan2]
      cases hc : (occsFrom rest needle 1).head? with
      | some r => rfl
      | none =>
        have hscan3 : scanLines (l0 :: rest) needle 0 1 =
            (occsFrom ((l0 :: rest).take 1) needle 0).head? := by
          unfold scanLines
          rw [Nat.sub_zero, scanLines_aux _ _ hne 1 0, List.drop_zero]
        rw [hscan3]
        have htk1 : (l0 :: rest).take 1 = [l0] := rfl
        rw [htk1, occsFrom, occsFrom, hl0e]
        simp

theorem succAfter_getElem (l : List LinePos) (hsorted : List.Pairwise lexLt l)
    (i : Nat) (p : LinePos) (hip : l[i]? = some p) :
    succAfter l p = l[(i + 1) % l.length]? := by
  have hi : i < l.length := by
    by_contra hcon
    rw [List.getElem?_eq_none (by omega)] at hip
    exact absurd hip (by simp)
  have hpl : l[i] = p := by
    rw [List.getElem?_eq_getElem hi] at hip
    injection hip
  have hpw := List.pairwise_iff_getElem.mp hsorted
  have hfilter : l.filter (fun q => decide (lexLt p q)) = l.drop (i + 1) := by
    conv_lhs => rw [← List.take_append_drop (i + 1) l]
    rw [List.filter_append]
    have h1 : (l.take (i + 1)).filter (fun q => decide (lexLt p q)) = [] := by
      rw [List.filter_eq_nil_iff]
      intro q hq
      obtain ⟨j, hj, hjq⟩ := List.mem_iff_getElem.mp hq
      rw [List.getElem_take] at hjq
      have hjlen : j < i + 1 := by
        rw [List.length_take] at hj
        omega
      simp only [decide_eq_true_eq]
      by_cases hji : j = i
      · subst hji
        rw [hpl] at hjq
        subst hjq
        unfold lexLt
        omega
      · have hlt := hpw j i (by omega) hi (by omega)
        rw [hpl, hjq] at hlt
        unfold lexLt at hlt ⊢
        omega
    have h2 : (l.drop (i + 1)).filter (fun q => decide (lexLt p q)) =
        l.drop (i + 1) := by
      rw [List.filter_eq_self]
      intro q hq
      obtain ⟨j, hj, hjq⟩ := List.mem_iff_getElem.mp hq
      have hjlen : i + 1 + j < l.length := by
        rw [List.length_drop] at hj
        omega
      rw [← List.getElem_drop' l hjlen] at hjq
      have hlt := hpw i (i + 1 + j) hi hjlen (by omega)
      rw [hpl, hjq] at hlt
      simp only [decide_eq_true_eq]
      exact hlt
    rw [h1, h2, List.nil_append]
  unfold succAfter
  rw [hfilter, List.head?_drop]
  by_cases hlast : i + 1 < l.length
  · rw [Nat.mod_eq_of_lt hlast]
    cases hx : l[i + 1]? with
    | none =>
      rw [List.getElem?_eq_none_iff] at hx
      omega
    | some q => rfl
  · have hieq : i + 1 = l.length := by omega
    rw [List.getElem?_eq_none (by omega)]
    have hmod : (i + 1) % l.length = 0 := by
      rw [hieq]
      exact Nat.mod_self _
    rw [hmod]
    exact (List.head?_eq_getElem? l)

theorem blameOccs_line_lt (b : BlameFile) (needle : List Char) (q : LinePos)
    (hq : q ∈ blameOccs b needle) : q.line < b.length := by
  have := occsFrom_line_bounds needle b 0 q hq
  omega

theorem blame_search_next_iterate (b : BlameFile) (needle : List Char)
    (hne : needle ≠ []) (hocc : blameOccs b needle ≠ []) :
    ∀ k : Nat, ∃ q : LinePos,
      (blameOccs b needle)[k % (blameOccs b needle).length]? = some q ∧
      (blame_search_next b)^[k + 1]
          { str := some needle, start := LinePos.mk 0 0, found := none } =
        { str := some needle, start := q, found := some q } := by
  have hmpos : 0 < (blameOccs b needle).length := List.length_pos.mpr hocc
  intro k
  induction k with
  | zero =>
    obtain ⟨q0, hq0⟩ : ∃ q0, (blameOccs b needle).head? = some q0 := by
      cases hh : (blameOccs b needle).head? with
      | none => exact absurd (List.head?_eq_none_iff.mp hh) hocc
      | some q0 => exact ⟨q0, rfl⟩
    refine ⟨q0, ?_, ?_⟩
    · rw [Nat.zero_mod, ← List.head?_eq_getElem?]
      exact hq0
    · rw [Function.iterate_one]
      unfold blame_search_next
      dsimp only
      rw [if_neg hne, blame_search_only_init b needle hne, hq0]
  | succ k ih =>
    obtain ⟨q, hq, hstate⟩ := ih
    have hqmem : q ∈ blameOccs b needle := by
      rw [List.mem_iff_getElem?]
      exact ⟨k % (blameOccs b needle).length, hq⟩
    have hline := blameOccs_line_lt b needle q hqmem
    have hsucc := succAfter_getElem (blameOccs b needle)
      (occsFrom_sorted needle b 0) (k % (blameOccs b needle).length) q hq
    have hmod : (k % (blameOccs b needle).length + 1) % (blameOccs b needle).length =
        (k + 1) % (blameOccs b needle).length := Nat.mod_add_mod k _ 1
    obtain ⟨q2, hq2⟩ : ∃ q2,
        (blameOccs b needle)[(k + 1) % (blameOccs b needle).length]? = some q2 := by
      have hlt : (k + 1) % (blameOccs b needle).length <
          (blameOccs b needle).length := Nat.mod_lt _ hmpos
      rw [List.getElem?_eq_getElem hlt]
      exact ⟨_, rfl⟩
    refine ⟨q2, hq2, ?_⟩
    rw [Function.iterate_succ_apply', hstate]
    unfold blame_search_next
    dsimp only
    rw [if_neg hne, blame_search_only_at_occ b needle hne q hline, hsucc, hmod, hq2]

/-- C6: in the blame viewer, for every non-empty needle occurring in the file,
search_next from line 0, offset 0 selects the first occurrence of the needle
(occurrences are listed by blameOccs in strictly increasing (line, offset)
order), and the (k+1)-th call to search_next selects occurrence number
k mod (number of occurrences): every occurrence is visited exactly once in
position order and the search then wraps back to the first occurrence. -/
theorem blame_search_next_visits_all (b : BlameFile) (needle : List Char)
    (hne : needle ≠ []) (hocc : blameOccs b needle ≠ []) :
    List.Pairwise lexLt (blameOccs b needle) ∧
    ∀ k : Nat,
      ((blame_search_next b)^[k + 1]
          { str := some needle, start := LinePos.mk 0 0, found := none }).found =
        (blameOccs b needle)[k % (blameOccs b needle).length]? := by
  refine ⟨occsFrom_sorted needle b 0, fun k => ?_⟩
  obtain ⟨q, hq, hst⟩ := blame_search_next_iterate b needle hne hocc k
  rw [hst]
  exact hq.symm

theorem blame_search_next_visits_all_witness :
    (['b'] : List Char) ≠ [] ∧
    blameOccs [['a', 'b'], ['b']] ['b'] ≠ [] ∧
    (List.Pairwise lexLt (blameOccs [['a', 'b'], ['b']] ['b']) ∧
      ∀ k : Nat,
        ((blame_search_next [['a', 'b'], ['b']])^[k + 1]
            { str := some ['b'], start := LinePos.mk 0 0, found := none }).found =
          (blameOccs [['a', 'b'], ['b']] ['b'])[k %
            (blameOccs [['a', 'b'], ['b']] ['b']).length]?) :=
  ⟨by decide, by decide,
    blame_search_next_visits_all [['a', 'b'], ['b']] ['b'] (by decide) (by decide)⟩
